import Mathlib

/-!
Shallow embedding of the core reconciliation engine of the tilt repository,
together with proofs checking the natural-language specification against it.

Embedded source files:
* `internal/engine/local` (`ServerController`): process-server lifecycle
  controller (`reconcile`).
* `internal/engine/configs/api.go`: owned-object reconciler
  (`getExistingAPIObjects`, `updateObjects`) and the trigger-queue
  controller (`TriggerQueueSubscriber.fromState`, `OnChange`,
  `removeDisabledManifests`).
* `internal/engine/local/restarton` (`restarton` package): trigger
  computation (`LastStartEvent`, `LastRestartEvent`, `FilesChanged`).

Modelling conventions:
* Go `time.Time` values are modelled as `Nat`; the zero `time.Time{}` is `0`,
  `t1.After t2` is `t2 < t1`, `t1.Before t2` is `t1 < t2`, `t1.Equal t2` is
  `t1 = t2`.
* Go maps are modelled as association lists read through `mapGet` (first
  binding wins); map writes cons a new binding on the front, which preserves
  the read semantics.
* Go interface values holding typed API objects are modelled by the concrete
  structure `APIObject` with an opaque `spec` payload; `apicmp.DeepEqual` on
  specs is modelled by structural equality of that payload.
* Fallible external calls (the controller-runtime client) are modelled by an
  explicit outcome function `exec : Call → Option String` returning the error
  message, if any, for each issued call.
-/

namespace Tilt

/-- Go map read `m[k]`: first binding for `k` in the association list. -/
def mapGet {α : Type} (m : List (String × α)) (k : String) : Option α :=
  match m with
  | [] => none
  | (k', v) :: t => if k' = k then some v else mapGet t k

end Tilt

namespace Tilt.Restarton

/-! ## Embedding of the `restarton` package (`src/unnamed/part_000`)

Times are `Nat` (see the conventions above); the `v1alpha1` status types are
reduced to the fields this package reads. -/

structure UIButtonStatus where
  lastClickedAt : Nat
deriving DecidableEq, Repr

structure UIButton where
  name : String
  status : UIButtonStatus
deriving DecidableEq, Repr

structure FileEvent where
  time : Nat
  seenFiles : List String
deriving DecidableEq, Repr

structure FileWatchStatus where
  lastEventTime : Nat
  fileEvents : List FileEvent
deriving DecidableEq, Repr

structure FileWatch where
  name : String
  status : FileWatchStatus
deriving DecidableEq, Repr

structure RestartOnSpec where
  fileWatches : List String
  uiButtons : List String
deriving DecidableEq, Repr

structure StartOnSpec where
  uiButtons : List String
  startAfter : Nat
deriving DecidableEq, Repr

/-- `restarton.LastStartEvent`: the last time a start was requested from this
target's dependencies.  A `none` spec is the Go `nil` pointer. -/
def LastStartEvent (startOn : Option StartOnSpec)
    (buttons : List (String × UIButton)) : Nat × Option UIButton :=
  match startOn with
  | none => (0, none)
  | some so =>
    so.uiButtons.foldl
      (fun acc bn =>
        match mapGet buttons bn with
        | none => acc -- ignore missing buttons
        | some b =>
          if ¬ b.status.lastClickedAt < so.startAfter ∧ acc.1 < b.status.lastClickedAt then
            (b.status.lastClickedAt, some b)
          else acc)
      (0, none)

/-- `restarton.LastRestartEvent`: the last time a restart was requested from
this target's dependencies. -/
def LastRestartEvent (restartOn : Option RestartOnSpec)
    (fileWatches : List (String × FileWatch)) (buttons : List (String × UIButton)) :
    Nat × Option UIButton :=
  match restartOn with
  | none => (0, none)
  | some ro =>
    let cur := ro.fileWatches.foldl
      (fun cur fwn =>
        match mapGet fileWatches fwn with
        | none => cur -- ignore missing filewatches
        | some fw =>
          if cur < fw.status.lastEventTime then fw.status.lastEventTime else cur)
      0
    ro.uiButtons.foldl
      (fun acc bn =>
        match mapGet buttons bn with
        | none => acc -- ignore missing buttons
        | some b =>
          if acc.1 < b.status.lastClickedAt then (b.status.lastClickedAt, some b)
          else acc)
      (cur, none)

/-- Insert a string into a sorted duplicate-free list, keeping it sorted and
duplicate-free. -/
def insertSorted (x : String) : List String → List String
  | [] => [x]
  | y :: t => if x ≤ y then (if x = y then y :: t else x :: y :: t) else y :: insertSorted x t

/-- Modelled from the spec: `sliceutils.DedupedAndSorted` is called by
`FilesChanged` but its source is not under `src/`; per the spec the result is
"deduplicated and sorted for determinism". -/
def DedupedAndSorted (l : List String) : List String :=
  l.foldr insertSorted []

/-- `restarton.FilesChanged`: the set of files that have changed since the
given timestamp.  The Go receiver dereferences `restartOn`, so the argument
is a plain (non-`nil`) spec. -/
def FilesChanged (restartOn : RestartOnSpec) (fileWatches : List (String × FileWatch))
    (lastBuild : Nat) : List String :=
  let filesChanged := restartOn.fileWatches.foldl
    (fun acc fwn =>
      match mapGet fileWatches fwn with
      | none => acc -- ignore missing filewatches
      | some fw =>
        -- Add files so that the most recent files are first.
        fw.status.fileEvents.reverse.foldl
          (fun acc2 e => if lastBuild < e.time then acc2 ++ e.seenFiles else acc2)
          acc)
    []
  DedupedAndSorted filesChanged

end Tilt.Restarton

namespace Tilt.Configs

/-! ## Embedding of the owned-object reconciler
(`src/internal/engine/configs/api.go`, first part)

`object` values (controller-runtime objects with a `GetSpec`) are modelled by
`APIObject`; the `spec` payload is opaque and `apicmp.DeepEqual` on specs is
structural equality of the payload.  A `GroupVersionResource` is modelled by
its resource string. -/

/-- `v1alpha1.LabelOwnerKind`: label key marking objects generated by the
Tiltfile loader (the exact label string does not matter to the claims). -/
def LabelOwnerKind : String := "app.tilt.dev/owner-kind"

/-- `v1alpha1.LabelOwnerKindTiltfile`: the owner-label value. -/
def LabelOwnerKindTiltfile : String := "Tiltfile"

structure APIObject where
  gvr : String
  name : String
  spec : String
  resourceVersion : String
  labels : List (String × String)
deriving DecidableEq, Repr

/-- `ownerSelector` (a label selector on `LabelOwnerKind`): true when the
object carries the Tiltfile owner label. -/
def ownerSelectorMatches (o : APIObject) : Bool :=
  mapGet o.labels LabelOwnerKind == some LabelOwnerKindTiltfile

/-- `typedObjectSet`: `map[string]object`, keyed by object name. -/
abbrev TypedObjectSet : Type := List (String × APIObject)

/-- `objectSet`: `map[schema.GroupVersionResource]typedObjectSet`. -/
abbrev ObjectSet : Type := List (String × TypedObjectSet)

def kubernetesApplyGVR : String := "kubernetesapplys"
def imageMapGVR : String := "imagemaps"
def fileWatchGVR : String := "filewatches"

/-- One `client.List(ctx, &list, ListOptions{LabelSelector: ownerSelector})`
call for one typed kind: all objects of that kind carrying the owner label,
keyed by name.  `cluster` is the backing store's full content. -/
def listOwned (gvr : String) (cluster : List APIObject) : TypedObjectSet :=
  (cluster.filter fun o => o.gvr == gvr && ownerSelectorMatches o).map fun o => (o.name, o)

/-- `getExistingAPIObjects`: fetch all the existing API objects that were
generated from the Tiltfile, scoped through the owner selector. -/
def getExistingAPIObjects (cluster : List APIObject) : ObjectSet :=
  [(kubernetesApplyGVR, listOwned kubernetesApplyGVR cluster),
   (imageMapGVR, listOwned imageMapGVR cluster),
   (fileWatchGVR, listOwned fileWatchGVR cluster)]

/-- One create/update/delete call issued against the API server. -/
inductive Call where
  | create (o : APIObject)
  | update (o : APIObject)
  | delete (o : APIObject)
deriving DecidableEq, Repr

/-- The object an API call carries. -/
def Call.obj : Call → APIObject
  | .create o => o
  | .update o => o
  | .delete o => o

/-- The error message recorded for a failed call (`fmt.Errorf` wrapping in
`updateObjects`). -/
def errFor (c : Call) (e : String) : String :=
  match c with
  | .create o => "create " ++ o.gvr ++ "/" ++ o.name ++ ": " ++ e
  | .update o => "update " ++ o.gvr ++ "/" ++ o.name ++ ": " ++ e
  | .delete o => "delete " ++ o.gvr ++ "/" ++ o.name ++ ": " ++ e

/-- The body of the upsert loop of `updateObjects` for one desired entry
`no` (name-keyed object) of kind `t`: look up the old object, create when
absent, update (carrying the old resource version) when the specs differ,
otherwise do nothing.  Each attempted call is paired with its outcome under
`exec`, wrapped by `errFor`. -/
def upsertOp (exec : Call → Option String) (oldObjects : ObjectSet) (t : String)
    (no : String × APIObject) : List (Call × Option String) :=
  match (mapGet oldObjects t).bind fun oldSet => mapGet oldSet no.1 with
  | none =>
    let c := Call.create no.2
    [(c, (exec c).map (errFor c))]
  | some old =>
    -- Are there other fields here we should check?
    if old.spec ≠ no.2.spec then
      let c := Call.update { no.2 with resourceVersion := old.resourceVersion }
      [(c, (exec c).map (errFor c))]
    else []

/-- The body of the delete loop of `updateObjects` for one existing entry
`no` of kind `t`: delete it unless the new objects still contain its
`(kind, name)`. -/
def deleteOp (exec : Call → Option String) (newObjects : ObjectSet) (t : String)
    (no : String × APIObject) : List (Call × Option String) :=
  match mapGet newObjects t with
  | some newSet =>
    if (mapGet newSet no.1).isSome then []
    else
      let c := Call.delete no.2
      [(c, (exec c).map (errFor c))]
  | none =>
    let c := Call.delete no.2
    [(c, (exec c).map (errFor c))]

/-- The body of `updateObjects`: every call it attempts, in order, paired
with that call's outcome under `exec` (already wrapped by `errFor`).
The first flat map is the upsert loop over the new objects; the second is the
delete loop over the old objects. -/
def updateObjectsOps (exec : Call → Option String) (newObjects oldObjects : ObjectSet) :
    List (Call × Option String) :=
  (newObjects.flatMap fun ts => ts.2.flatMap (upsertOp exec oldObjects ts.1)) ++
  (oldObjects.flatMap fun ts => ts.2.flatMap (deleteOp exec newObjects ts.1))

/-- The calls attempted by one `updateObjects` pass. -/
def updateObjectsCalls (exec : Call → Option String) (newObjects oldObjects : ObjectSet) :
    List Call :=
  (updateObjectsOps exec newObjects oldObjects).map Prod.fst

/-- The errors collected (`errs`) across one `updateObjects` pass. -/
def updateObjectsErrs (exec : Call → Option String) (newObjects oldObjects : ObjectSet) :
    List String :=
  (updateObjectsOps exec newObjects oldObjects).filterMap Prod.snd

/-- `utilerrors.NewAggregate`: `nil` for an empty error list, otherwise the
aggregated list. -/
def NewAggregate (errs : List String) : Option (List String) :=
  if errs = [] then none else some errs

/-- `updateObjects`: reconcile the new API objects against the existing API
objects, returning the aggregated error. -/
def updateObjects (exec : Call → Option String) (newObjects oldObjects : ObjectSet) :
    Option (List String) :=
  NewAggregate (updateObjectsErrs exec newObjects oldObjects)

/-- Well-formedness of an object set, as produced by `toAPIObjects` and
`getExistingAPIObjects`: GVR keys are duplicate-free, each typed set's name
keys are duplicate-free, and every entry's object records the kind and name
it is keyed under. -/
def WFSet (s : ObjectSet) : Prop :=
  (s.map Prod.fst).Nodup ∧
    ∀ p ∈ s, ((p.2.map Prod.fst).Nodup ∧ ∀ q ∈ p.2, q.2.gvr = p.1 ∧ q.2.name = q.1)

instance (s : ObjectSet) : Decidable (WFSet s) := by
  unfold WFSet
  infer_instance

/-- Nested lookup of the object stored (or desired) for a `(kind, name)`. -/
def lookup2 (s : ObjectSet) (t n : String) : Option APIObject :=
  (mapGet s t).bind fun m => mapGet m n

/-- The calls of a pass whose carried object is keyed `(t, n)`. -/
def callsFor (calls : List Call) (t n : String) : List Call :=
  calls.filter fun c => c.obj.gvr == t && c.obj.name == n

/-! ## Embedding of the trigger-queue controller
(`src/internal/engine/configs/api.go`, second part)

The slice of `store.EngineState` this controller reads is the trigger queue
(an ordered list of manifest names), the per-manifest build state (only the
`TriggerReason` integer flag is read), and the `UIResources` map (only the
`DisableStatus.DisabledCount` is read). -/

structure ManifestState where
  triggerReason : Nat
deriving DecidableEq, Repr

structure UIResource where
  disabledCount : Int
deriving DecidableEq, Repr

structure EngineState where
  triggerQueue : List String
  manifestStates : List (String × ManifestState)
  uiResources : List (String × UIResource)
deriving DecidableEq, Repr

/-- An action dispatched into the store by this controller. -/
inductive StoreAction where
  | log (manifestName spanID msg : String)
  | removeFromTriggerQueue (name : String)
deriving DecidableEq, Repr

/-- Modelled from the spec: `configmap.TriggerQueueName` is not under `src/`;
the spec only requires a fixed well-known document name. -/
def TriggerQueueName : String := "trigger-queue"

structure ConfigMap where
  name : String
  data : List (String × String)
deriving DecidableEq, Repr

structure TriggerQueueSubscriber where
  lastUpdate : Option ConfigMap
deriving DecidableEq, Repr

/-- `TriggerQueueSubscriber.fromState`: the published representation of the
trigger queue.  `Data` is built with the keys `"{i}-name"` always and
`"{i}-reason-code"` only when the manifest has a state. -/
def fromState (state : EngineState) : ConfigMap :=
  { name := TriggerQueueName
    data := state.triggerQueue.enum.flatMap fun iv =>
      (toString iv.1 ++ "-name", iv.2) ::
        match mapGet state.manifestStates iv.2 with
        | none => []
        | some ms => [(toString iv.1 ++ "-reason-code", toString ms.triggerReason)] }

/-- The body of the `removeDisabledManifests` loop for one queued manifest
name: when its `UIResource` reports a positive disabled count, one
informational log action and one `RemoveFromTriggerQueueAction`. -/
def removeDisabledStep (state : EngineState) (mn : String) : List StoreAction :=
  match mapGet state.uiResources mn with
  | some uir =>
    if 0 < uir.disabledCount then
      [StoreAction.log mn ("unqueue:" ++ mn)
        ("Will not build resource \"" ++ mn ++ "\": it is disabled"),
       StoreAction.removeFromTriggerQueue mn]
    else []
  | none => []

/-- `removeDisabledManifests`: for every queued manifest whose `UIResource`
reports a positive disabled count, dispatch one informational log action and
one `RemoveFromTriggerQueueAction`. -/
def removeDisabledManifests (state : EngineState) : List StoreAction :=
  state.triggerQueue.flatMap (removeDisabledStep state)

/-- The result of one `TriggerQueueSubscriber.OnChange` pass: the subscriber
state afterwards, the store actions dispatched, the external configmap
upserts attempted, and the returned error. -/
structure OnChangeResult where
  state : TriggerQueueSubscriber
  actions : List StoreAction
  writes : List ConfigMap
  err : Option String
deriving DecidableEq, Repr

/-- `TriggerQueueSubscriber.OnChange`.  `upsertErr` is the outcome of the
`controllerutil.CreateOrUpdate` call, when one is attempted; on failure the
`lastUpdate` baseline is left unchanged. -/
def OnChange (s : TriggerQueueSubscriber) (isLogOnly : Bool) (st : EngineState)
    (upsertErr : Option String) : OnChangeResult :=
  if isLogOnly then
    { state := s, actions := [], writes := [], err := none }
  else
    let acts := removeDisabledManifests st
    let cm := fromState st
    match s.lastUpdate with
    | some lastUpdate =>
      if cm.data = lastUpdate.data then
        { state := s, actions := acts, writes := [], err := none }
      else
        match upsertErr with
        | some e => { state := s, actions := acts, writes := [cm], err := some e }
        | none =>
          { state := { lastUpdate := some cm }, actions := acts, writes := [cm], err := none }
    | none =>
      match upsertErr with
      | some e => { state := s, actions := acts, writes := [cm], err := some e }
      | none =>
        { state := { lastUpdate := some cm }, actions := acts, writes := [cm], err := none }

end Tilt.Configs

namespace Tilt.LocalServe

/-! ## Embedding of the process-server lifecycle controller
(`src/unnamed/part_002`, package `local`: `ServerController`)

`v1alpha1.Probe` pointers are modelled opaquely (`Option Nat`); only their
structural equality is used.  The Go maps of the controller are association
lists whose writes cons a fresh binding (see the conventions at the top). -/

structure CmdSpec where
  args : List String
  dir : String
  env : List String
  readinessProbe : Option Nat
deriving DecidableEq, Repr

/-- `CmdStatus`: only the `Terminated` pointer is read by this controller;
`some code` is a terminated process with that exit code. -/
structure CmdStatus where
  terminated : Option Int
deriving DecidableEq, Repr

structure OwnerReference where
  name : String
  kind : String
deriving DecidableEq, Repr

structure CmdObjectMeta where
  name : String
  ownerReferences : List OwnerReference
  annotations : List (String × String)
  labels : List (String × String)
deriving DecidableEq, Repr

structure Cmd where
  meta : CmdObjectMeta
  spec : CmdSpec
  status : CmdStatus
deriving DecidableEq, Repr

structure CmdServerSpec where
  args : List String
  dir : String
  env : List String
  readinessProbe : Option Nat
  triggerTime : Nat
deriving DecidableEq, Repr

structure CmdServerStatus where
  cmdName : String
  cmdStatus : CmdStatus
deriving DecidableEq, Repr

structure CmdServer where
  name : String
  spec : CmdServerSpec
  status : CmdServerStatus
deriving DecidableEq, Repr

structure ServerController where
  createdCmds : List (String × Cmd)
  createdTriggerTime : List (String × Nat)
  deletingCmds : List (String × Bool)
  cmdCount : Nat
deriving DecidableEq, Repr

def NewServerController : ServerController :=
  { createdCmds := [], createdTriggerTime := [], deletingCmds := [], cmdCount := 0 }

/-- An action dispatched into the store by `ServerController.reconcile`. -/
inductive ServerAction where
  | cmdDelete (name : String)
  | cmdCreate (cmd : Cmd)
deriving DecidableEq, Repr

/-- `v1alpha1.AnnotationSpanID` (exact string immaterial to the claims). -/
def AnnotationSpanID : String := "tilt.dev/span-id"

/-- `v1alpha1.LabelManifest` (exact string immaterial to the claims). -/
def LabelManifest : String := "tilt.dev/manifest"

/-- Modelled from the spec: `SpanIDForServeLog` is defined elsewhere in the
`local` package (not under `src/`); it derives a span identifier from the
per-controller counter. -/
def SpanIDForServeLog (n : Nat) : String := "cmdserver:serve:" ++ toString n

/-- The tail of `ServerController.reconcile` ("Start the command!"): record
the trigger time, clear the pending-deletion flag, bump the counter, build
the owned `Cmd` and dispatch its creation. -/
def reconcileStart (c : ServerController) (server : CmdServer) (cmdSpec : CmdSpec)
    (name : String) : ServerController × List ServerAction :=
  let cmdCount := c.cmdCount + 1
  let cmdName := name ++ "-serve-" ++ toString cmdCount
  let cmd : Cmd :=
    { meta :=
        { name := cmdName
          ownerReferences := [{ name := name, kind := "CmdServer" }]
          annotations := [(AnnotationSpanID, SpanIDForServeLog cmdCount)]
          labels := [(LabelManifest, name)] }
      spec := cmdSpec
      status := { terminated := none } }
  ({ createdCmds := (name, cmd) :: c.createdCmds
     createdTriggerTime := (name, server.spec.triggerTime) :: c.createdTriggerTime
     deletingCmds := (name, false) :: c.deletingCmds
     cmdCount := cmdCount },
   [ServerAction.cmdCreate cmd])

/-- `ServerController.reconcile` for one `CmdServer`, returning the updated
controller state and the actions dispatched in this pass. -/
def reconcile (c : ServerController) (server : CmdServer) :
    ServerController × List ServerAction :=
  let cmdSpec : CmdSpec :=
    { args := server.spec.args
      dir := server.spec.dir
      env := server.spec.env
      readinessProbe := server.spec.readinessProbe }
  let name := server.name
  match mapGet c.createdCmds name with
  | some created =>
    let triggerTime := (mapGet c.createdTriggerTime name).getD 0
    if created.spec = cmdSpec ∧ triggerTime = server.spec.triggerTime then
      -- We're in the correct state! Nothing to do.
      (c, [])
    -- If the command hasn't appeared yet, wait until it appears.
    else if server.status.cmdName = "" then
      (c, []) -- wait for the command to appear
    -- If the command is running, wait until it's deleted
    else if (server.status.cmdStatus.terminated).isNone then
      if (mapGet c.deletingCmds name).getD false then
        (c, [])
      else
        ({ c with deletingCmds := (name, true) :: c.deletingCmds },
         [ServerAction.cmdDelete server.status.cmdName])
    else
      reconcileStart c server cmdSpec name
  | none =>
    reconcileStart c server cmdSpec name

/-- A sequence of reconcile passes for one server: the desired/observed
`CmdServer` view of each pass in order, with the actions of every pass
concatenated. -/
def runServer (c : ServerController) (inputs : List CmdServer) :
    ServerController × List ServerAction :=
  match inputs with
  | [] => (c, [])
  | s :: rest =>
    let step := reconcile c s
    let restRun := runServer step.1 rest
    (restRun.1, step.2 ++ restRun.2)

def countCreates (acts : List ServerAction) : Nat :=
  (acts.filter fun a => match a with | .cmdCreate _ => true | _ => false).length

def countDeletes (acts : List ServerAction) : Nat :=
  (acts.filter fun a => match a with | .cmdDelete _ => true | _ => false).length

/-- The `CmdSpec` that `reconcile` derives from a `CmdServer`'s spec. -/
def serverCmdSpec (server : CmdServer) : CmdSpec :=
  { args := server.spec.args
    dir := server.spec.dir
    env := server.spec.env
    readinessProbe := server.spec.readinessProbe }

/-- A pass input that forces a replacement of the created command `cr`
(created at trigger time `tt`): the desired spec or trigger time differs and
the live command's name is visible in the status. -/
def mismatch (cr : Cmd) (tt : Nat) (server : CmdServer) : Bool :=
  !(cr.spec == serverCmdSpec server && tt == server.spec.triggerTime) &&
    server.status.cmdName != ""

end Tilt.LocalServe

namespace Tilt.Restarton

/-! ## Statement scaffolding for the trigger-computation claims -/

/-- The maximum `LastClickedAt` over a list of buttons (`0` when empty,
matching the Go zero `time.Time`). -/
def maxClick (bs : List UIButton) : Nat :=
  (bs.map fun b => b.status.lastClickedAt).foldr max 0

/-- The maximum `LastEventTime` over a list of file watches (`0` when
empty). -/
def maxEventTime (fws : List FileWatch) : Nat :=
  (fws.map fun fw => fw.status.lastEventTime).foldr max 0

/-- The referenced buttons of a spec that resolve in the supplied map, in
scan order. -/
def resolvedButtons (names : List String) (buttons : List (String × UIButton)) :
    List UIButton :=
  names.filterMap (mapGet buttons)

/-- The referenced file watches of a spec that resolve in the supplied map,
in scan order. -/
def resolvedFileWatches (names : List String) (fileWatches : List (String × FileWatch)) :
    List FileWatch :=
  names.filterMap (mapGet fileWatches)

/-- The resolved buttons whose click is valid for `LastStartEvent`:
clicked at or after `startAfter`. -/
def validButtons (so : StartOnSpec) (buttons : List (String × UIButton)) :
    List UIButton :=
  (resolvedButtons so.uiButtons buttons).filter fun b =>
    so.startAfter ≤ b.status.lastClickedAt

end Tilt.Restarton

namespace Tilt

/-! ## Association-list lemmas shared by the proofs -/

theorem mapGet_eq_some_mem {α : Type} {m : List (String × α)} {k : String} {v : α}
    (h : mapGet m k = some v) : (k, v) ∈ m := by
  induction m with
  | nil => simp [mapGet] at h
  | cons p t ih =>
    obtain ⟨k', v'⟩ := p
    by_cases hk : k' = k
    · subst hk
      simp [mapGet] at h
      subst h
      exact List.mem_cons_self _ _
    · simp [mapGet, hk] at h
      exact List.mem_cons_of_mem _ (ih h)

theorem mem_mapGet_of_nodup {α : Type} {m : List (String × α)} {k : String} {v : α}
    (hnd : (m.map Prod.fst).Nodup) (h : (k, v) ∈ m) : mapGet m k = some v := by
  induction m with
  | nil => simp at h
  | cons p t ih =>
    obtain ⟨k', v'⟩ := p
    simp only [List.map_cons, List.nodup_cons] at hnd
    rcases List.mem_cons.mp h with h1 | h1
    · obtain ⟨hk, hv⟩ := Prod.mk.injEq .. ▸ h1
      simp [mapGet, hk.symm, hv]
    · have hk : k' ≠ k := by
        intro hkk
        subst hkk
        exact hnd.1 (List.mem_map.mpr ⟨(k', v), h1, rfl⟩)
      simp [mapGet, hk]
      exact ih hnd.2 h1

theorem mapGet_eq_none_iff {α : Type} {m : List (String × α)} {k : String} :
    mapGet m k = none ↔ ∀ v, (k, v) ∉ m := by
  induction m with
  | nil => simp [mapGet]
  | cons p t ih =>
    obtain ⟨k', v'⟩ := p
    by_cases hk : k' = k
    · subst hk
      simp only [mapGet, if_pos rfl]
      constructor
      · intro h
        exact absurd h (by simp)
      · intro h
        exact absurd (List.mem_cons_self _ _) (h v')
    · simp only [mapGet, hk, if_false, ih]
      constructor
      · intro h v hv
        rcases List.mem_cons.mp hv with h1 | h1
        · exact hk (Prod.mk.injEq .. ▸ h1).1.symm
        · exact h v h1
      · intro h v hv
        exact h v (List.mem_cons_of_mem _ hv)

/-- If every element of `l` contributes no action matching `p`, the whole
flat-mapped action list contains none either. -/
theorem filter_flatMap_eq_nil {α β : Type} {l : List α} {f : α → List β} {p : β → Bool}
    (h : ∀ x ∈ l, (f x).filter p = []) : (l.flatMap f).filter p = [] := by
  induction l with
  | nil => simp
  | cons a t ih =>
    simp only [List.flatMap_cons, List.filter_append]
    rw [h a (List.mem_cons_self _ _), ih fun x hx => h x (List.mem_cons_of_mem _ hx)]
    rfl

/-- In a duplicate-free list, the actions matching `p` produced by a flat map
come from the unique element `x` alone, when every other element
contributes none. -/
theorem filter_flatMap_eq_single {α β : Type} {l : List α} {f : α → List β} {p : β → Bool}
    {x : α} (hnd : l.Nodup) (hx : x ∈ l)
    (hothers : ∀ y ∈ l, y ≠ x → (f y).filter p = []) :
    (l.flatMap f).filter p = (f x).filter p := by
  induction l with
  | nil => simp at hx
  | cons a t ih =>
    simp only [List.nodup_cons] at hnd
    simp only [List.flatMap_cons, List.filter_append]
    rcases List.mem_cons.mp hx with h1 | h1
    · subst h1
      have : (t.flatMap f).filter p = [] := by
        apply filter_flatMap_eq_nil
        intro y hy
        exact hothers y (List.mem_cons_of_mem _ hy) (fun hyx => hnd.1 (hyx ▸ hy))
      rw [this, List.append_nil]
    · have ha : (f a).filter p = [] :=
        hothers a (List.mem_cons_self _ _) (fun hax => hnd.1 (hax ▸ h1))
      rw [ha, List.nil_append]
      exact ih hnd.2 h1 fun y hy => hothers y (List.mem_cons_of_mem _ hy)

end Tilt

namespace Tilt.Restarton

/-! ## Lemmas on the trigger-computation folds -/

theorem maxClick_cons (b : UIButton) (t : List UIButton) :
    maxClick (b :: t) = max b.status.lastClickedAt (maxClick t) := rfl

theorem maxEventTime_cons (fw : FileWatch) (t : List FileWatch) :
    maxEventTime (fw :: t) = max fw.status.lastEventTime (maxEventTime t) := rfl

theorem exists_click_eq_maxClick {bs : List UIButton} (h : 0 < maxClick bs) :
    ∃ b ∈ bs, b.status.lastClickedAt = maxClick bs := by
  induction bs with
  | nil => simp [maxClick] at h
  | cons b t ih =>
    rw [maxClick_cons] at h ⊢
    rcases Nat.le_total (maxClick t) b.status.lastClickedAt with h1 | h1
    · exact ⟨b, List.mem_cons_self _ _, (Nat.max_eq_left h1).symm⟩
    · rw [Nat.max_eq_right h1] at h ⊢
      obtain ⟨x, hx, hx2⟩ := ih h
      exact ⟨x, List.mem_cons_of_mem _ hx, hx2⟩

/-- The running-maximum button scan of `LastRestartEvent` (and, after
validity filtering, of `LastStartEvent`): starting from `(v, w)` it yields
the maximum of `v` and all clicks, and attributes the first button whose
click equals the overall maximum exactly when the clicks strictly improve
on `v`. -/
theorem buttonScan_eq (bs : List UIButton) (v : Nat) (w : Option UIButton) :
    bs.foldl (fun acc b =>
        if acc.1 < b.status.lastClickedAt then (b.status.lastClickedAt, some b) else acc)
      (v, w)
    = (max v (maxClick bs),
       if v < maxClick bs then
         bs.find? (fun b => b.status.lastClickedAt == maxClick bs)
       else w) := by
  induction bs generalizing v w with
  | nil => simp [maxClick]
  | cons b t ih =>
    rw [List.foldl_cons, maxClick_cons]
    dsimp only
    by_cases h : v < b.status.lastClickedAt
    · rw [if_pos h, ih]
      by_cases h2 : b.status.lastClickedAt < maxClick t
      · have e1 : max b.status.lastClickedAt (maxClick t) = maxClick t := by omega
        have hb : (b.status.lastClickedAt == maxClick t) = false := by
          simp only [beq_eq_false_iff_ne, ne_eq]
          omega
        rw [e1, if_pos h2, if_pos (show v < maxClick t by omega)]
        simp only [List.find?_cons, hb, Prod.mk.injEq, and_true]
        omega
      · have e1 : max b.status.lastClickedAt (maxClick t) = b.status.lastClickedAt := by omega
        have hb : (b.status.lastClickedAt == b.status.lastClickedAt) = true := by
          simp only [beq_self_eq_true]
        rw [e1, if_neg h2, if_pos h]
        simp only [List.find?_cons, hb, Prod.mk.injEq, and_true]
        omega
    · rw [if_neg h, ih]
      by_cases h3 : v < maxClick t
      · have e1 : max b.status.lastClickedAt (maxClick t) = maxClick t := by omega
        have hb : (b.status.lastClickedAt == maxClick t) = false := by
          simp only [beq_eq_false_iff_ne, ne_eq]
          omega
        rw [e1, if_pos h3, if_pos h3]
        simp only [List.find?_cons, hb]
      · rw [if_neg h3, if_neg (show ¬ v < max b.status.lastClickedAt (maxClick t) by omega)]
        simp only [Prod.mk.injEq, and_true]
        omega

/-- Skipping unresolved names: the `LastRestartEvent` button loop over names
equals the plain scan over the buttons that resolve. -/
theorem restartButtonFold_eq (names : List String) (buttons : List (String × UIButton))
    (init : Nat × Option UIButton) :
    names.foldl (fun acc bn =>
      match mapGet buttons bn with
      | none => acc
      | some b =>
        if acc.1 < b.status.lastClickedAt then (b.status.lastClickedAt, some b) else acc)
      init
    = (resolvedButtons names buttons).foldl (fun acc b =>
        if acc.1 < b.status.lastClickedAt then (b.status.lastClickedAt, some b) else acc)
      init := by
  induction names generalizing init with
  | nil => rfl
  | cons n t ih =>
    rw [List.foldl_cons]
    cases h : mapGet buttons n with
    | none =>
      simp only [resolvedButtons, List.filterMap_cons, h]
      exact ih init
    | some b =>
      simp only [resolvedButtons, List.filterMap_cons, h, List.foldl_cons]
      exact ih _

/-- Skipping unresolved names and invalid clicks: the `LastStartEvent` loop
over names equals the plain scan over the resolved buttons whose click is at
or after `sa`. -/
theorem startButtonFold_eq (names : List String) (buttons : List (String × UIButton))
    (sa : Nat) (init : Nat × Option UIButton) :
    names.foldl (fun acc bn =>
      match mapGet buttons bn with
      | none => acc
      | some b =>
        if ¬ b.status.lastClickedAt < sa ∧ acc.1 < b.status.lastClickedAt then
          (b.status.lastClickedAt, some b)
        else acc)
      init
    = ((resolvedButtons names buttons).filter fun b =>
        sa ≤ b.status.lastClickedAt).foldl (fun acc b =>
        if acc.1 < b.status.lastClickedAt then (b.status.lastClickedAt, some b) else acc)
      init := by
  induction names generalizing init with
  | nil => rfl
  | cons n t ih =>
    rw [List.foldl_cons]
    cases h : mapGet buttons n with
    | none =>
      simp only [resolvedButtons, List.filterMap_cons, h]
      exact ih init
    | some b =>
      simp only [resolvedButtons, List.filterMap_cons, h]
      by_cases hv : sa ≤ b.status.lastClickedAt
      · rw [List.filter_cons_of_pos (by simpa using hv), List.foldl_cons]
        have hcond : (if ¬ b.status.lastClickedAt < sa ∧ init.1 < b.status.lastClickedAt then
              (b.status.lastClickedAt, some b) else init) =
            (if init.1 < b.status.lastClickedAt then (b.status.lastClickedAt, some b)
              else init) := by
          by_cases h2 : init.1 < b.status.lastClickedAt
          · rw [if_pos ⟨by omega, h2⟩, if_pos h2]
          · rw [if_neg (by tauto), if_neg h2]
        rw [hcond]
        exact ih _
      · rw [List.filter_cons_of_neg (by simpa using hv)]
        have hcond : (if ¬ b.status.lastClickedAt < sa ∧ init.1 < b.status.lastClickedAt then
            (b.status.lastClickedAt, some b) else init) = init := by
          rw [if_neg (by omega)]
        rw [hcond]
        exact ih init

/-- The file-watch loop of `LastRestartEvent` computes the running maximum of
the resolved watches' last event times. -/
theorem fwFold_eq (names : List String) (fileWatches : List (String × FileWatch)) (v : Nat) :
    names.foldl (fun cur fwn =>
      match mapGet fileWatches fwn with
      | none => cur
      | some fw => if cur < fw.status.lastEventTime then fw.status.lastEventTime else cur)
      v
    = max v (maxEventTime (resolvedFileWatches names fileWatches)) := by
  induction names generalizing v with
  | nil => simp [resolvedFileWatches, maxEventTime]
  | cons n t ih =>
    rw [List.foldl_cons]
    cases h : mapGet fileWatches n with
    | none =>
      simp only [resolvedFileWatches, List.filterMap_cons, h]
      exact ih v
    | some fw =>
      simp only [resolvedFileWatches, List.filterMap_cons, h, maxEventTime_cons] at ih ⊢
      have e1 : (if v < fw.status.lastEventTime then fw.status.lastEventTime else v) =
          max v fw.status.lastEventTime := by
        split <;> omega
      rw [e1, ih]
      omega

end Tilt.Restarton

namespace Tilt.Restarton

/-! ## Lemmas for `FilesChanged` -/

theorem mem_eventFold (lastBuild : Nat) (events : List FileEvent) (acc : List String)
    (f : String) :
    (f ∈ events.foldl
        (fun acc2 e => if lastBuild < e.time then acc2 ++ e.seenFiles else acc2) acc) ↔
      f ∈ acc ∨ ∃ e ∈ events, lastBuild < e.time ∧ f ∈ e.seenFiles := by
  induction events generalizing acc with
  | nil => simp
  | cons e t ih =>
    rw [List.foldl_cons]
    by_cases h : lastBuild < e.time
    · rw [if_pos h, ih]
      simp only [List.mem_append, List.mem_cons, h]
      constructor
      · rintro ((hf | hf) | ⟨x, hx, hlt, hmem⟩)
        · exact Or.inl hf
        · exact Or.inr ⟨e, Or.inl rfl, h, hf⟩
        · exact Or.inr ⟨x, Or.inr hx, hlt, hmem⟩
      · rintro (hf | ⟨x, hx | hx, hlt, hmem⟩)
        · exact Or.inl (Or.inl hf)
        · subst hx
          exact Or.inl (Or.inr hmem)
        · exact Or.inr ⟨x, hx, hlt, hmem⟩
    · rw [if_neg h, ih]
      simp only [List.mem_cons]
      constructor
      · rintro (hf | ⟨x, hx, hlt, hmem⟩)
        · exact Or.inl hf
        · exact Or.inr ⟨x, Or.inr hx, hlt, hmem⟩
      · rintro (hf | ⟨x, hx | hx, hlt, hmem⟩)
        · exact Or.inl hf
        · subst hx
          exact absurd hlt h
        · exact Or.inr ⟨x, hx, hlt, hmem⟩

theorem mem_filesChangedFold (lastBuild : Nat) (names : List String)
    (fileWatches : List (String × FileWatch)) (acc : List String) (f : String) :
    (f ∈ names.foldl (fun acc fwn =>
        match mapGet fileWatches fwn with
        | none => acc
        | some fw =>
          fw.status.fileEvents.reverse.foldl
            (fun acc2 e => if lastBuild < e.time then acc2 ++ e.seenFiles else acc2) acc)
      acc) ↔
      f ∈ acc ∨ ∃ fwn ∈ names, ∃ fw, mapGet fileWatches fwn = some fw ∧
        ∃ e ∈ fw.status.fileEvents, lastBuild < e.time ∧ f ∈ e.seenFiles := by
  induction names generalizing acc with
  | nil => simp
  | cons n t ih =>
    rw [List.foldl_cons]
    cases h : mapGet fileWatches n with
    | none =>
      dsimp only
      rw [ih]
      simp only [List.mem_cons]
      constructor
      · rintro (hf | ⟨fwn, hm, rest⟩)
        · exact Or.inl hf
        · exact Or.inr ⟨fwn, Or.inr hm, rest⟩
      · rintro (hf | ⟨fwn, hm | hm, fw, hfw, rest⟩)
        · exact Or.inl hf
        · subst hm
          rw [h] at hfw
          cases hfw
        · exact Or.inr ⟨fwn, hm, fw, hfw, rest⟩
    | some fw =>
      dsimp only
      rw [ih, mem_eventFold]
      simp only [List.mem_reverse, List.mem_cons]
      constructor
      · rintro ((hf | ⟨e, he, hlt, hmem⟩) | ⟨fwn, hm, rest⟩)
        · exact Or.inl hf
        · exact Or.inr ⟨n, Or.inl rfl, fw, h, e, he, hlt, hmem⟩
        · exact Or.inr ⟨fwn, Or.inr hm, rest⟩
      · rintro (hf | ⟨fwn, hm | hm, fw2, hfw, rest⟩)
        · exact Or.inl (Or.inl hf)
        · subst hm
          rw [h] at hfw
          injection hfw with hfw
          subst hfw
          exact Or.inl (Or.inr rest)
        · exact Or.inr ⟨fwn, hm, fw2, hfw, rest⟩

theorem mem_insertSorted (x a : String) (l : List String) :
    a ∈ insertSorted x l ↔ a = x ∨ a ∈ l := by
  induction l with
  | nil => simp [insertSorted]
  | cons y t ih =>
    rw [insertSorted]
    by_cases h1 : x ≤ y
    · rw [if_pos h1]
      by_cases h2 : x = y
      · subst h2
        rw [if_pos rfl]
        simp only [List.mem_cons]
        tauto
      · rw [if_neg h2]
        simp [List.mem_cons]
    · rw [if_neg h1]
      simp only [List.mem_cons, ih]
      tauto

theorem sorted_insertSorted (x : String) (l : List String)
    (h : l.Pairwise (· < ·)) : (insertSorted x l).Pairwise (· < ·) := by
  induction l with
  | nil => simp [insertSorted]
  | cons y t ih =>
    rw [insertSorted]
    rcases List.pairwise_cons.mp h with ⟨hy, ht⟩
    by_cases h1 : x ≤ y
    · rw [if_pos h1]
      by_cases h2 : x = y
      · rw [if_pos h2]
        exact h
      · rw [if_neg h2]
        refine List.pairwise_cons.mpr ⟨?_, h⟩
        intro a ha
        have hxy : x < y := lt_of_le_of_ne h1 h2
        rcases List.mem_cons.mp ha with rfl | ha2
        · exact hxy
        · exact lt_trans hxy (hy a ha2)
    · rw [if_neg h1]
      refine List.pairwise_cons.mpr ⟨?_, ih ht⟩
      intro a ha
      rcases (mem_insertSorted x a t).mp ha with rfl | ha2
      · exact lt_of_not_le h1
      · exact hy a ha2

theorem sorted_dedupedAndSorted (l : List String) :
    (DedupedAndSorted l).Pairwise (· < ·) := by
  induction l with
  | nil => simp [DedupedAndSorted]
  | cons a t ih => exact sorted_insertSorted a (DedupedAndSorted t) ih

theorem mem_dedupedAndSorted (l : List String) (a : String) :
    a ∈ DedupedAndSorted l ↔ a ∈ l := by
  induction l with
  | nil => simp [DedupedAndSorted]
  | cons x t ih =>
    show a ∈ insertSorted x (DedupedAndSorted t) ↔ _
    rw [mem_insertSorted, ih]
    simp [List.mem_cons]

end Tilt.Restarton

namespace Tilt.Restarton

/-- C8: for every `StartOnSpec` and button map, `LastStartEvent` treats a
button's click as valid exactly when the click time is at or after
`startAfter` (`validButtons`), and returns the maximum valid click time
together with the first-found button achieving it (a candidate replaces the
current winner only when strictly after the running maximum, whose initial
value is the zero time); with no valid click it returns the zero time and an
absent button. -/
theorem lastStartEvent_correct (so : StartOnSpec) (buttons : List (String × UIButton)) :
    LastStartEvent (some so) buttons =
      (maxClick (validButtons so buttons),
       if 0 < maxClick (validButtons so buttons) then
         (validButtons so buttons).find? fun b =>
           b.status.lastClickedAt == maxClick (validButtons so buttons)
       else none)
    ∧ (validButtons so buttons = [] → LastStartEvent (some so) buttons = (0, none))
    ∧ (∀ b, (LastStartEvent (some so) buttons).2 = some b →
        b ∈ validButtons so buttons ∧
        b.status.lastClickedAt = maxClick (validButtons so buttons) ∧
        (LastStartEvent (some so) buttons).1 = b.status.lastClickedAt)
    ∧ (0 < maxClick (validButtons so buttons) →
        ((LastStartEvent (some so) buttons).2).isSome = true) := by
  have hmain : LastStartEvent (some so) buttons =
      (maxClick (validButtons so buttons),
       if 0 < maxClick (validButtons so buttons) then
         (validButtons so buttons).find? fun b =>
           b.status.lastClickedAt == maxClick (validButtons so buttons)
       else none) := by
    simp only [LastStartEvent, validButtons]
    rw [startButtonFold_eq, buttonScan_eq, Nat.zero_max]
  refine ⟨hmain, ?_, ?_, ?_⟩
  · intro h
    rw [hmain, h]
    simp [maxClick]
  · intro b hb
    rw [hmain] at hb
    by_cases hM : 0 < maxClick (validButtons so buttons)
    · rw [if_pos hM] at hb
      dsimp only at hb
      refine ⟨List.mem_of_find?_eq_some hb, ?_, ?_⟩
      · have := List.find?_some hb
        simpa using this
      · rw [hmain]
        have := List.find?_some hb
        simp only [beq_iff_eq] at this
        simp [this]
    · rw [if_neg hM] at hb
      cases hb
  · intro hM
    rw [hmain]
    simp only [if_pos hM]
    obtain ⟨b, hbmem, hbclick⟩ := exists_click_eq_maxClick hM
    cases hf : (validButtons so buttons).find? fun b =>
        b.status.lastClickedAt == maxClick (validButtons so buttons) with
    | none =>
      exact absurd (by simpa using hbclick)
        (by simpa using List.find?_eq_none.mp hf b hbmem)
    | some x => simp

/-- C8 witness: the first spec example, buttons `{b1 : clicked at 15}`,
`startAfter = 10`: the click is valid, maximal, and attributed to `b1`. -/
theorem lastStartEvent_correct_witness :
    (⟨"b1", ⟨15⟩⟩ : UIButton) ∈
        validButtons ⟨["b1"], 10⟩ [("b1", ⟨"b1", ⟨15⟩⟩)] ∧
      (⟨"b1", ⟨15⟩⟩ : UIButton).status.lastClickedAt =
        maxClick (validButtons ⟨["b1"], 10⟩ [("b1", ⟨"b1", ⟨15⟩⟩)]) ∧
      (LastStartEvent (some ⟨["b1"], 10⟩) [("b1", ⟨"b1", ⟨15⟩⟩)]).1 =
        (⟨"b1", ⟨15⟩⟩ : UIButton).status.lastClickedAt :=
  (lastStartEvent_correct ⟨["b1"], 10⟩ [("b1", ⟨"b1", ⟨15⟩⟩)]).2.2.1
    ⟨"b1", ⟨15⟩⟩ (by decide)

/-- C4: for every `RestartOnSpec`, file-watch map, and button map,
`LastRestartEvent` returns the maximum of the resolved file-watchers' last
event times and the resolved buttons' click times; the attributed button is
present exactly when the button maximum strictly exceeds the file-watch
maximum, in which case the winner is the first button achieving the button
maximum; a file-watch event never attributes a button (a file-watch maximum
at or above every click yields an absent button). -/
theorem lastRestartEvent_correct (ro : RestartOnSpec)
    (fileWatches : List (String × FileWatch)) (buttons : List (String × UIButton)) :
    LastRestartEvent (some ro) fileWatches buttons =
      (max (maxEventTime (resolvedFileWatches ro.fileWatches fileWatches))
        (maxClick (resolvedButtons ro.uiButtons buttons)),
       if maxEventTime (resolvedFileWatches ro.fileWatches fileWatches) <
           maxClick (resolvedButtons ro.uiButtons buttons) then
         (resolvedButtons ro.uiButtons buttons).find? fun b =>
           b.status.lastClickedAt == maxClick (resolvedButtons ro.uiButtons buttons)
       else none)
    ∧ (((LastRestartEvent (some ro) fileWatches buttons).2).isSome = true ↔
        maxEventTime (resolvedFileWatches ro.fileWatches fileWatches) <
          maxClick (resolvedButtons ro.uiButtons buttons))
    ∧ ∀ b, (LastRestartEvent (some ro) fileWatches buttons).2 = some b →
        b ∈ resolvedButtons ro.uiButtons buttons ∧
        b.status.lastClickedAt = (LastRestartEvent (some ro) fileWatches buttons).1 := by
  have hmain : LastRestartEvent (some ro) fileWatches buttons =
      (max (maxEventTime (resolvedFileWatches ro.fileWatches fileWatches))
        (maxClick (resolvedButtons ro.uiButtons buttons)),
       if maxEventTime (resolvedFileWatches ro.fileWatches fileWatches) <
           maxClick (resolvedButtons ro.uiButtons buttons) then
         (resolvedButtons ro.uiButtons buttons).find? fun b =>
           b.status.lastClickedAt == maxClick (resolvedButtons ro.uiButtons buttons)
       else none) := by
    simp only [LastRestartEvent]
    rw [fwFold_eq, Nat.zero_max, restartButtonFold_eq, buttonScan_eq]
  refine ⟨hmain, ?_, ?_⟩
  · rw [hmain]
    by_cases hFM : maxEventTime (resolvedFileWatches ro.fileWatches fileWatches) <
        maxClick (resolvedButtons ro.uiButtons buttons)
    · simp only [if_pos hFM]
      constructor
      · intro _
        exact hFM
      · intro _
        obtain ⟨b, hbmem, hbclick⟩ :=
          @exists_click_eq_maxClick (resolvedButtons ro.uiButtons buttons) (by omega)
        cases hf : (resolvedButtons ro.uiButtons buttons).find? fun b =>
            b.status.lastClickedAt == maxClick (resolvedButtons ro.uiButtons buttons) with
        | none =>
          exact absurd (by simpa using hbclick)
            (by simpa using List.find?_eq_none.mp hf b hbmem)
        | some x => simp
    · simp only [if_neg hFM]
      simp [hFM]
  · intro b hb
    rw [hmain] at hb
    by_cases hFM : maxEventTime (resolvedFileWatches ro.fileWatches fileWatches) <
        maxClick (resolvedButtons ro.uiButtons buttons)
    · rw [if_pos hFM] at hb
      dsimp only at hb
      refine ⟨List.mem_of_find?_eq_some hb, ?_⟩
      have := List.find?_some hb
      simp only [beq_iff_eq] at this
      rw [hmain, this]
      simp only
      omega
    · rw [if_neg hFM] at hb
      cases hb

/-- C4 witness: one file watch with last event time `5` and one button
clicked at `15`: the button wins and its click is the returned maximum. -/
theorem lastRestartEvent_correct_witness :
    (⟨"b1", ⟨15⟩⟩ : UIButton) ∈ resolvedButtons ["b1"] [("b1", ⟨"b1", ⟨15⟩⟩)] ∧
      (⟨"b1", ⟨15⟩⟩ : UIButton).status.lastClickedAt =
        (LastRestartEvent (some ⟨["fw1"], ["b1"]⟩)
          [("fw1", ⟨"fw1", ⟨5, []⟩⟩)] [("b1", ⟨"b1", ⟨15⟩⟩)]).1 :=
  (lastRestartEvent_correct ⟨["fw1"], ["b1"]⟩
    [("fw1", ⟨"fw1", ⟨5, []⟩⟩)] [("b1", ⟨"b1", ⟨15⟩⟩)]).2.2
    ⟨"b1", ⟨15⟩⟩ (by decide)

/-- C7: for every `RestartOnSpec`, file-watch map, and last-build time,
`FilesChanged` returns a sorted duplicate-free list whose members are exactly
the union of `seenFiles` over every event, anywhere in a referenced
watcher's full log, with time strictly after `lastBuild`; a referenced
watcher missing from the map contributes nothing (and the function is total,
so no error occurs). -/
theorem filesChanged_correct (ro : RestartOnSpec)
    (fileWatches : List (String × FileWatch)) (lastBuild : Nat) :
    List.Sorted (· ≤ ·) (FilesChanged ro fileWatches lastBuild)
    ∧ (FilesChanged ro fileWatches lastBuild).Nodup
    ∧ ∀ f, (f ∈ FilesChanged ro fileWatches lastBuild ↔
        ∃ fwn ∈ ro.fileWatches, ∃ fw, mapGet fileWatches fwn = some fw ∧
          ∃ e ∈ fw.status.fileEvents, lastBuild < e.time ∧ f ∈ e.seenFiles) := by
  have hdef : FilesChanged ro fileWatches lastBuild =
      DedupedAndSorted (ro.fileWatches.foldl
        (fun acc fwn =>
          match mapGet fileWatches fwn with
          | none => acc
          | some fw =>
            fw.status.fileEvents.reverse.foldl
              (fun acc2 e => if lastBuild < e.time then acc2 ++ e.seenFiles else acc2) acc)
        []) := rfl
  refine ⟨?_, ?_, ?_⟩
  · rw [hdef]
    exact List.Pairwise.imp (fun h => le_of_lt h) (sorted_dedupedAndSorted _)
  · rw [hdef]
    exact List.Pairwise.imp (fun h => ne_of_lt h) (sorted_dedupedAndSorted _)
  · intro f
    rw [hdef, mem_dedupedAndSorted, mem_filesChangedFold]
    simp

/-- C7 witness: the spec example, one watcher with events at times `11`
(`a`) and `13` (`b`) and `lastBuild = 12`: `b` is reported because of the
event at `13`. -/
theorem filesChanged_correct_witness :
    ∃ fwn ∈ ["fw1"], ∃ fw,
      mapGet [("fw1", (⟨"fw1", ⟨13, [⟨11, ["a"]⟩, ⟨13, ["b"]⟩]⟩⟩ : FileWatch))] fwn
        = some fw ∧
      ∃ e ∈ fw.status.fileEvents, 12 < e.time ∧ "b" ∈ e.seenFiles :=
  ((filesChanged_correct ⟨["fw1"], []⟩
      [("fw1", ⟨"fw1", ⟨13, [⟨11, ["a"]⟩, ⟨13, ["b"]⟩]⟩⟩)] 12).2.2 "b").mp
    (by decide)

/-- C10: a `nil` `StartOnSpec` makes `LastStartEvent` return the zero time
and an absent button for every button map, and a `nil` `RestartOnSpec` makes
`LastRestartEvent` return the zero time and an absent button for every
file-watch map and button map. -/
theorem nilSpec_returns_zero :
    (∀ buttons : List (String × UIButton), LastStartEvent none buttons = (0, none))
    ∧ ∀ (fileWatches : List (String × FileWatch)) (buttons : List (String × UIButton)),
        LastRestartEvent none fileWatches buttons = (0, none) :=
  ⟨fun _ => rfl, fun _ _ => rfl⟩

end Tilt.Restarton

namespace Tilt.Configs

/-! ## Trigger-queue eviction (claim C9) -/

theorem removeDisabledStep_filter_remove (state : EngineState) (mn : String)
    {y : String} (hy : y ≠ mn) :
    (removeDisabledStep state y).filter (fun a =>
      match a with
      | StoreAction.removeFromTriggerQueue n => n == mn
      | StoreAction.log _ _ _ => false) = [] := by
  unfold removeDisabledStep
  cases mapGet state.uiResources y with
  | none => rfl
  | some uir =>
    dsimp only
    by_cases hd : 0 < uir.disabledCount
    · rw [if_pos hd]
      have hbe : (y == mn) = false := beq_eq_false_iff_ne.mpr hy
      simp [List.filter, hbe]
    · rw [if_neg hd]
      rfl

theorem removeDisabledStep_filter_log (state : EngineState) (mn : String)
    {y : String} (hy : y ≠ mn) :
    (removeDisabledStep state y).filter (fun a =>
      match a with
      | StoreAction.log n _ _ => n == mn
      | StoreAction.removeFromTriggerQueue _ => false) = [] := by
  unfold removeDisabledStep
  cases mapGet state.uiResources y with
  | none => rfl
  | some uir =>
    dsimp only
    by_cases hd : 0 < uir.disabledCount
    · rw [if_pos hd]
      have hbe : (y == mn) = false := beq_eq_false_iff_ne.mpr hy
      simp [List.filter, hbe]
    · rw [if_neg hd]
      rfl

/-- C9: in one trigger-queue eviction pass, every queued entry whose owning
resource is disabled (positive disabled count) gets exactly one removal
action and exactly one informational log action attributed to it, and a
queued entry whose owning resource is not disabled (or has no resource
entry) gets no removal action. -/
theorem removeDisabledManifests_correct (state : EngineState)
    (hnd : state.triggerQueue.Nodup) (mn : String) (hmem : mn ∈ state.triggerQueue) :
    ((∃ uir, mapGet state.uiResources mn = some uir ∧ 0 < uir.disabledCount) →
      ((removeDisabledManifests state).filter fun a =>
          match a with
          | StoreAction.removeFromTriggerQueue n => n == mn
          | StoreAction.log _ _ _ => false).length = 1 ∧
      ((removeDisabledManifests state).filter fun a =>
          match a with
          | StoreAction.log n _ _ => n == mn
          | StoreAction.removeFromTriggerQueue _ => false).length = 1)
    ∧ ((∀ uir, mapGet state.uiResources mn = some uir → uir.disabledCount ≤ 0) →
      ((removeDisabledManifests state).filter fun a =>
          match a with
          | StoreAction.removeFromTriggerQueue n => n == mn
          | StoreAction.log _ _ _ => false).length = 0) := by
  have hkeyR : (removeDisabledManifests state).filter (fun a =>
      match a with
      | StoreAction.removeFromTriggerQueue n => n == mn
      | StoreAction.log _ _ _ => false) =
      (removeDisabledStep state mn).filter (fun a =>
      match a with
      | StoreAction.removeFromTriggerQueue n => n == mn
      | StoreAction.log _ _ _ => false) := by
    unfold removeDisabledManifests
    exact filter_flatMap_eq_single hnd hmem fun y _ hy =>
      removeDisabledStep_filter_remove state mn hy
  have hkeyL : (removeDisabledManifests state).filter (fun a =>
      match a with
      | StoreAction.log n _ _ => n == mn
      | StoreAction.removeFromTriggerQueue _ => false) =
      (removeDisabledStep state mn).filter (fun a =>
      match a with
      | StoreAction.log n _ _ => n == mn
      | StoreAction.removeFromTriggerQueue _ => false) := by
    unfold removeDisabledManifests
    exact filter_flatMap_eq_single hnd hmem fun y _ hy =>
      removeDisabledStep_filter_log state mn hy
  constructor
  · rintro ⟨uir, huir, hd⟩
    rw [hkeyR, hkeyL]
    unfold removeDisabledStep
    rw [huir]
    dsimp only
    rw [if_pos hd]
    simp [List.filter]
  · intro hnotd
    rw [hkeyR]
    unfold removeDisabledStep
    cases huir : mapGet state.uiResources mn with
    | none => rfl
    | some uir =>
      dsimp only
      rw [if_neg (by have := hnotd uir huir; omega)]
      rfl

/-- C9 witness: the regression-test scenario, queue `[a, b, c]` with `b`
disabled: exactly one removal and one log for `b`. -/
theorem removeDisabledManifests_correct_witness :
    ((removeDisabledManifests
        { triggerQueue := ["a", "b", "c"], manifestStates := [],
          uiResources := [("b", { disabledCount := 1 })] }).filter fun a =>
        match a with
        | StoreAction.removeFromTriggerQueue n => n == "b"
        | StoreAction.log _ _ _ => false).length = 1 ∧
    ((removeDisabledManifests
        { triggerQueue := ["a", "b", "c"], manifestStates := [],
          uiResources := [("b", { disabledCount := 1 })] }).filter fun a =>
        match a with
        | StoreAction.log n _ _ => n == "b"
        | StoreAction.removeFromTriggerQueue _ => false).length = 1 :=
  (removeDisabledManifests_correct
      { triggerQueue := ["a", "b", "c"], manifestStates := [],
        uiResources := [("b", { disabledCount := 1 })] }
      (by decide) "b" (by decide)).1
    ⟨{ disabledCount := 1 }, by decide, by decide⟩

end Tilt.Configs

namespace Tilt.Configs

/-! ## Trigger-queue published representation (claim C3) -/

/-- C3 counterexample: with queue `["a"]` and manifest state `a ↦ reason 1`,
the published data has no `"0-reasonCode"` field; the reason field's actual
key is `"0-reason-code"`. -/
theorem fromState_reasonCode_key_counterexample :
    mapGet (fromState { triggerQueue := ["a"],
                        manifestStates := [("a", { triggerReason := 1 })],
                        uiResources := [] }).data "0-reasonCode" = none
    ∧ mapGet (fromState { triggerQueue := ["a"],
                          manifestStates := [("a", { triggerReason := 1 })],
                          uiResources := [] }).data "0-reason-code" = some "1"
    ∧ mapGet (fromState { triggerQueue := ["a"],
                          manifestStates := [("a", { triggerReason := 1 })],
                          uiResources := [] }).data "0-name" = some "a" := by
  refine ⟨?_, ?_, ?_⟩ <;> rfl

/-- C3 (amended): for every engine state, the published data contains, for
each 0-indexed queue position `i`, the field `"{i}-name"` mapped to the
manifest name, and — when that manifest has a state — the field
`"{i}-reason-code"` (hyphenated, not `"{i}-reasonCode"`) mapped to the
decimal rendering of its trigger reason; and every field of the data is of
one of those two forms for some in-range position, so positions are
contiguous with no gaps. -/
theorem fromState_fields (state : EngineState) :
    (∀ i, ∀ h : i < state.triggerQueue.length,
      ((toString i ++ "-name", state.triggerQueue.get ⟨i, h⟩) ∈ (fromState state).data
      ∧ ∀ ms, mapGet state.manifestStates (state.triggerQueue.get ⟨i, h⟩) = some ms →
          (toString i ++ "-reason-code", toString ms.triggerReason) ∈ (fromState state).data))
    ∧ ∀ kv ∈ (fromState state).data, ∃ i, ∃ h : i < state.triggerQueue.length,
        kv = (toString i ++ "-name", state.triggerQueue.get ⟨i, h⟩)
        ∨ ∃ ms, mapGet state.manifestStates (state.triggerQueue.get ⟨i, h⟩) = some ms ∧
            kv = (toString i ++ "-reason-code", toString ms.triggerReason) := by
  constructor
  · intro i h
    have henum : (i, state.triggerQueue.get ⟨i, h⟩) ∈ state.triggerQueue.enum := by
      rw [List.mem_enum_iff_getElem?, List.get_eq_getElem]
      exact List.getElem?_eq_getElem h
    constructor
    · refine List.mem_flatMap.mpr ⟨(i, state.triggerQueue.get ⟨i, h⟩), henum, ?_⟩
      exact List.mem_cons_self _ _
    · intro ms hms
      refine List.mem_flatMap.mpr ⟨(i, state.triggerQueue.get ⟨i, h⟩), henum, ?_⟩
      refine List.mem_cons_of_mem _ ?_
      rw [hms]
      exact List.mem_cons_self _ _
  · intro kv hkv
    obtain ⟨⟨i, x⟩, hiv, hkv2⟩ := List.mem_flatMap.mp hkv
    obtain ⟨h, hx⟩ := List.getElem?_eq_some.mp (List.mem_enum_iff_getElem?.mp hiv)
    refine ⟨i, h, ?_⟩
    have hget : state.triggerQueue.get ⟨i, h⟩ = x := by
      rw [List.get_eq_getElem]
      exact hx
    rcases List.mem_cons.mp hkv2 with h1 | h1
    · exact Or.inl (by rw [hget]; exact h1)
    · cases hms : mapGet state.manifestStates x with
      | none =>
        rw [hms] at h1
        cases h1
      | some ms =>
        rw [hms] at h1
        rcases List.mem_cons.mp h1 with h2 | h2
        · exact Or.inr ⟨ms, by rw [hget]; exact hms, h2⟩
        · cases h2

/-- C3 witness: the first queue entry of a two-entry state yields fields
`0-name ↦ a` and `0-reason-code ↦ 8`. -/
theorem fromState_fields_witness :
    ((toString 0 ++ "-name",
        (["a", "b"] : List String).get ⟨0, by decide⟩) ∈
      (fromState { triggerQueue := ["a", "b"],
                   manifestStates := [("a", { triggerReason := 8 })],
                   uiResources := [] }).data)
    ∧ ∀ ms, mapGet [("a", ({ triggerReason := 8 } : ManifestState))]
          ((["a", "b"] : List String).get ⟨0, by decide⟩) = some ms →
        (toString 0 ++ "-reason-code", toString ms.triggerReason) ∈
          (fromState { triggerQueue := ["a", "b"],
                       manifestStates := [("a", { triggerReason := 8 })],
                       uiResources := [] }).data :=
  (fromState_fields { triggerQueue := ["a", "b"],
                      manifestStates := [("a", { triggerReason := 8 })],
                      uiResources := [] }).1 0 (by decide)

end Tilt.Configs

namespace Tilt.Configs

/-! ## Trigger-queue publish suppression (claim C6) -/

theorem OnChange_skip (s : TriggerQueueSubscriber) (st : EngineState) (e : Option String)
    (lu : ConfigMap) (hlu : s.lastUpdate = some lu)
    (hdata : (fromState st).data = lu.data) :
    (OnChange s false st e).writes = [] ∧ (OnChange s false st e).state = s := by
  unfold OnChange
  rw [if_neg (by simp), hlu]
  dsimp only
  rw [if_pos hdata]
  exact ⟨rfl, rfl⟩

theorem OnChange_publishes (s : TriggerQueueSubscriber) (st : EngineState)
    (h : ∀ lu, s.lastUpdate = some lu → (fromState st).data ≠ lu.data) :
    (OnChange s false st none).writes = [fromState st] ∧
      (OnChange s false st none).state = { lastUpdate := some (fromState st) } := by
  unfold OnChange
  rw [if_neg (by simp)]
  cases hlu : s.lastUpdate with
  | none => exact ⟨rfl, rfl⟩
  | some lu =>
    dsimp only
    rw [if_neg (h lu hlu)]
    exact ⟨rfl, rfl⟩

/-- C6: if the computed published representation is field-for-field identical
to the baseline this controller last published, the pass performs no external
write (and the baseline is unchanged); consequently, starting from a fresh
controller, publishing the same queue representation on two consecutive
passes issues exactly one external upsert in total. -/
theorem triggerQueue_publish_suppression (s : TriggerQueueSubscriber)
    (st1 st2 : EngineState) (e : Option String)
    (heq : (fromState st2).data = (fromState st1).data) :
    (∀ lu, s.lastUpdate = some lu → (fromState st1).data = lu.data →
      (OnChange s false st1 e).writes = [] ∧ (OnChange s false st1 e).state = s)
    ∧ (OnChange (OnChange s false st1 none).state false st2 e).writes = []
    ∧ (s.lastUpdate = none →
        (OnChange s false st1 none).writes.length = 1 ∧
        (OnChange s false st1 none).writes.length +
          (OnChange (OnChange s false st1 none).state false st2 e).writes.length = 1) := by
  refine ⟨fun lu hlu hdata => OnChange_skip s st1 e lu hlu hdata, ?_, ?_⟩
  · by_cases hcase : ∀ lu, s.lastUpdate = some lu → (fromState st1).data ≠ lu.data
    · obtain ⟨_, hst⟩ := OnChange_publishes s st1 hcase
      rw [hst]
      exact (OnChange_skip _ st2 e (fromState st1) rfl heq).1
    · push_neg at hcase
      obtain ⟨lu, hlu, hdata⟩ := hcase
      obtain ⟨_, hst⟩ := OnChange_skip s st1 none lu hlu hdata
      rw [hst]
      exact (OnChange_skip s st2 e lu hlu (heq.trans hdata)).1
  · intro hnone
    have hpub := OnChange_publishes s st1 (fun lu hlu => by rw [hnone] at hlu; cases hlu)
    have hskip : (OnChange (OnChange s false st1 none).state false st2 e).writes = [] := by
      rw [hpub.2]
      exact (OnChange_skip _ st2 e (fromState st1) rfl heq).1
    rw [hpub.1, hskip]
    exact ⟨rfl, rfl⟩

/-- C6 witness: a fresh subscriber publishing the same one-entry queue twice
performs exactly one upsert. -/
theorem triggerQueue_publish_suppression_witness :
    (OnChange ⟨none⟩ false { triggerQueue := ["a"], manifestStates := [("a", { triggerReason := 8 })], uiResources := [] } none).writes.length = 1 ∧
    (OnChange ⟨none⟩ false { triggerQueue := ["a"], manifestStates := [("a", { triggerReason := 8 })], uiResources := [] } none).writes.length +
      (OnChange (OnChange ⟨none⟩ false { triggerQueue := ["a"], manifestStates := [("a", { triggerReason := 8 })], uiResources := [] } none).state false { triggerQueue := ["a"], manifestStates := [("a", { triggerReason := 8 })], uiResources := [] } none).writes.length = 1 :=
  (triggerQueue_publish_suppression ⟨none⟩ { triggerQueue := ["a"], manifestStates := [("a", { triggerReason := 8 })], uiResources := [] } { triggerQueue := ["a"], manifestStates := [("a", { triggerReason := 8 })], uiResources := [] } none rfl).2.2 rfl

end Tilt.Configs

namespace Tilt

/-- Congruence for flat maps under pointwise equality on the list. -/
theorem flatMap_congr_mem {α β : Type} (l : List α) (f g : α → List β)
    (h : ∀ x ∈ l, f x = g x) : l.flatMap f = l.flatMap g := by
  induction l with
  | nil => rfl
  | cons a t ih =>
    rw [List.flatMap_cons, List.flatMap_cons, h a (List.mem_cons_self _ _),
      ih fun x hx => h x (List.mem_cons_of_mem _ hx)]

end Tilt

namespace Tilt.Configs

/-! ## Error handling of the owned-object reconciler (claim C5) -/

theorem upsertOp_map_fst (exec execB : Call → Option String) (oldObjects : ObjectSet)
    (t : String) (no : String × APIObject) :
    (upsertOp exec oldObjects t no).map Prod.fst =
      (upsertOp execB oldObjects t no).map Prod.fst := by
  unfold upsertOp
  cases (mapGet oldObjects t).bind fun oldSet => mapGet oldSet no.1 with
  | none => rfl
  | some old =>
    dsimp only
    split <;> rfl

theorem deleteOp_map_fst (exec execB : Call → Option String) (newObjects : ObjectSet)
    (t : String) (no : String × APIObject) :
    (deleteOp exec newObjects t no).map Prod.fst =
      (deleteOp execB newObjects t no).map Prod.fst := by
  unfold deleteOp
  cases mapGet newObjects t with
  | none => rfl
  | some newSet =>
    dsimp only
    split <;> rfl

theorem updateObjectsOps_map_fst (exec execB : Call → Option String)
    (newObjects oldObjects : ObjectSet) :
    (updateObjectsOps exec newObjects oldObjects).map Prod.fst =
      (updateObjectsOps execB newObjects oldObjects).map Prod.fst := by
  unfold updateObjectsOps
  rw [List.map_append, List.map_append]
  congr 1
  · rw [List.map_flatMap, List.map_flatMap]
    refine flatMap_congr_mem _ _ _ fun ts _ => ?_
    rw [List.map_flatMap, List.map_flatMap]
    exact flatMap_congr_mem _ _ _ fun no _ => upsertOp_map_fst exec execB oldObjects ts.1 no
  · rw [List.map_flatMap, List.map_flatMap]
    refine flatMap_congr_mem _ _ _ fun ts _ => ?_
    rw [List.map_flatMap, List.map_flatMap]
    exact flatMap_congr_mem _ _ _ fun no _ => deleteOp_map_fst exec execB newObjects ts.1 no

theorem upsertOp_snd (exec : Call → Option String) (oldObjects : ObjectSet)
    (t : String) (no : String × APIObject) :
    ∀ p ∈ upsertOp exec oldObjects t no, p.2 = (exec p.1).map (errFor p.1) := by
  intro p hp
  unfold upsertOp at hp
  cases hm : (mapGet oldObjects t).bind fun oldSet => mapGet oldSet no.1 with
  | none =>
    rw [hm] at hp
    dsimp only at hp
    rw [List.mem_singleton.mp hp]
  | some old =>
    rw [hm] at hp
    dsimp only at hp
    split at hp
    · rw [List.mem_singleton.mp hp]
    · cases hp

theorem deleteOp_snd (exec : Call → Option String) (newObjects : ObjectSet)
    (t : String) (no : String × APIObject) :
    ∀ p ∈ deleteOp exec newObjects t no, p.2 = (exec p.1).map (errFor p.1) := by
  intro p hp
  unfold deleteOp at hp
  cases hm : mapGet newObjects t with
  | none =>
    rw [hm] at hp
    dsimp only at hp
    rw [List.mem_singleton.mp hp]
  | some newSet =>
    rw [hm] at hp
    dsimp only at hp
    split at hp
    · cases hp
    · rw [List.mem_singleton.mp hp]

theorem updateObjectsOps_snd (exec : Call → Option String)
    (newObjects oldObjects : ObjectSet) :
    ∀ p ∈ updateObjectsOps exec newObjects oldObjects,
      p.2 = (exec p.1).map (errFor p.1) := by
  intro p hp
  unfold updateObjectsOps at hp
  rcases List.mem_append.mp hp with hp | hp
  · obtain ⟨ts, _, hp2⟩ := List.mem_flatMap.mp hp
    obtain ⟨no, _, hp3⟩ := List.mem_flatMap.mp hp2
    exact upsertOp_snd exec oldObjects ts.1 no p hp3
  · obtain ⟨ts, _, hp2⟩ := List.mem_flatMap.mp hp
    obtain ⟨no, _, hp3⟩ := List.mem_flatMap.mp hp2
    exact deleteOp_snd exec newObjects ts.1 no p hp3

theorem filterMap_snd_eq {β : Type} (l : List (Call × Option β)) (g : Call → Option β)
    (h : ∀ p ∈ l, p.2 = g p.1) :
    l.filterMap Prod.snd = (l.map Prod.fst).filterMap g := by
  induction l with
  | nil => rfl
  | cons p t ih =>
    rw [List.filterMap_cons, List.map_cons, List.filterMap_cons,
      ← h p (List.mem_cons_self _ _)]
    cases hp : p.2 with
    | none => exact ih fun q hq => h q (List.mem_cons_of_mem _ hq)
    | some b => rw [ih fun q hq => h q (List.mem_cons_of_mem _ hq)]

/-- C5: in one `updateObjects` pass the list of attempted calls does not
depend on which calls fail (a failure never prevents a sibling operation and
nothing is rolled back — no compensating call appears); the collected errors
are exactly the wrapped outcomes of the failing attempted calls; and the
aggregated result is `nil` exactly when every attempted call succeeded. -/
theorem updateObjects_error_aggregation (exec execB : Call → Option String)
    (newObjects oldObjects : ObjectSet) :
    updateObjectsCalls exec newObjects oldObjects =
      updateObjectsCalls execB newObjects oldObjects
    ∧ updateObjectsErrs exec newObjects oldObjects =
        (updateObjectsCalls exec newObjects oldObjects).filterMap
          (fun c => (exec c).map (errFor c))
    ∧ (updateObjects exec newObjects oldObjects = none ↔
        ∀ c ∈ updateObjectsCalls exec newObjects oldObjects, exec c = none) := by
  refine ⟨updateObjectsOps_map_fst exec execB newObjects oldObjects, ?_, ?_⟩
  · exact filterMap_snd_eq _ _ (updateObjectsOps_snd exec newObjects oldObjects)
  · unfold updateObjects NewAggregate
    have herrs : updateObjectsErrs exec newObjects oldObjects =
        (updateObjectsCalls exec newObjects oldObjects).filterMap
          (fun c => (exec c).map (errFor c)) :=
      filterMap_snd_eq _ _ (updateObjectsOps_snd exec newObjects oldObjects)
    rw [herrs]
    constructor
    · intro h c hc
      have h2 : ((updateObjectsCalls exec newObjects oldObjects).filterMap
          (fun c => (exec c).map (errFor c))) = [] := by
        by_contra hne
        rw [if_neg hne] at h
        cases h
      have := List.filterMap_eq_nil_iff.mp h2 c hc
      exact Option.map_eq_none'.mp this
    · intro h
      rw [if_pos (List.filterMap_eq_nil_iff.mpr fun c hc =>
        Option.map_eq_none'.mpr (h c hc))]

/-- C5 witness: with one desired object, one differing existing object and
one stale existing object, a failing update does not prevent the delete;
both errors aggregate and the calls are those of the all-success run. -/
theorem updateObjects_error_aggregation_witness :
    updateObjectsCalls (fun _ => some "boom")
        [("kubernetesapplys", [("a", { gvr := "kubernetesapplys", name := "a", spec := "s1", resourceVersion := "", labels := [] })])]
        [("kubernetesapplys", [("a", { gvr := "kubernetesapplys", name := "a", spec := "s2", resourceVersion := "rv", labels := [] }), ("b", { gvr := "kubernetesapplys", name := "b", spec := "s3", resourceVersion := "", labels := [] })])] =
      updateObjectsCalls (fun _ => none)
        [("kubernetesapplys", [("a", { gvr := "kubernetesapplys", name := "a", spec := "s1", resourceVersion := "", labels := [] })])]
        [("kubernetesapplys", [("a", { gvr := "kubernetesapplys", name := "a", spec := "s2", resourceVersion := "rv", labels := [] }), ("b", { gvr := "kubernetesapplys", name := "b", spec := "s3", resourceVersion := "", labels := [] })])] :=
  (updateObjects_error_aggregation (fun _ => some "boom") (fun _ => none)
      [("kubernetesapplys", [("a", { gvr := "kubernetesapplys", name := "a", spec := "s1", resourceVersion := "", labels := [] })])]
      [("kubernetesapplys", [("a", { gvr := "kubernetesapplys", name := "a", spec := "s2", resourceVersion := "rv", labels := [] }), ("b", { gvr := "kubernetesapplys", name := "b", spec := "s3", resourceVersion := "", labels := [] })])]).1

end Tilt.Configs

namespace Tilt

/-- In an association list with duplicate-free keys, a key determines its
value. -/
theorem mem_unique_of_keys_nodup {α : Type} {l : List (String × α)}
    (hnd : (l.map Prod.fst).Nodup) {k : String} {v v' : α}
    (h1 : (k, v) ∈ l) (h2 : (k, v') ∈ l) : v = v' := by
  have e1 := mem_mapGet_of_nodup hnd h1
  have e2 := mem_mapGet_of_nodup hnd h2
  rw [e1] at e2
  exact Option.some.inj e2

end Tilt

namespace Tilt.Configs

/-! ## The owned-object reconciliation diff (claim C1) -/

theorem listOwned_mem {g : String} {cluster : List APIObject} {q : String × APIObject}
    (hq : q ∈ listOwned g cluster) :
    q.2.gvr = g ∧ q.2.name = q.1 ∧ ownerSelectorMatches q.2 = true ∧ q.2 ∈ cluster := by
  unfold listOwned at hq
  obtain ⟨o, ho, hq2⟩ := List.mem_map.mp hq
  obtain ⟨hmem, hcond⟩ := List.mem_filter.mp ho
  simp only [Bool.and_eq_true, beq_iff_eq] at hcond
  rw [← hq2]
  exact ⟨hcond.1, rfl, hcond.2, hmem⟩

theorem listOwned_names_nodup (g : String) (cluster : List APIObject)
    (hclnd : cluster.Nodup)
    (hcluniq : ∀ o1 ∈ cluster, ∀ o2 ∈ cluster, o1.gvr = o2.gvr → o1.name = o2.name →
      o1 = o2) :
    ((listOwned g cluster).map Prod.fst).Nodup := by
  unfold listOwned
  rw [List.map_map]
  refine List.Nodup.map_on ?_ (hclnd.filter _)
  intro o1 ho1 o2 ho2 h12
  obtain ⟨hm1, hc1⟩ := List.mem_filter.mp ho1
  obtain ⟨hm2, hc2⟩ := List.mem_filter.mp ho2
  simp only [Bool.and_eq_true, beq_iff_eq] at hc1 hc2
  exact hcluniq o1 hm1 o2 hm2 (hc1.1.trans hc2.1.symm) h12

theorem WFSet_getExistingAPIObjects (cluster : List APIObject) (hclnd : cluster.Nodup)
    (hcluniq : ∀ o1 ∈ cluster, ∀ o2 ∈ cluster, o1.gvr = o2.gvr → o1.name = o2.name →
      o1 = o2) :
    WFSet (getExistingAPIObjects cluster) := by
  constructor
  · show ([kubernetesApplyGVR, imageMapGVR, fileWatchGVR] : List String).Nodup
    decide
  · intro p hp
    have hp3 : p = (kubernetesApplyGVR, listOwned kubernetesApplyGVR cluster)
        ∨ p = (imageMapGVR, listOwned imageMapGVR cluster)
        ∨ p = (fileWatchGVR, listOwned fileWatchGVR cluster) := by
      simpa [getExistingAPIObjects] using hp
    have key : ∀ g : String, p = (g, listOwned g cluster) →
        ((p.2.map Prod.fst).Nodup ∧ ∀ q ∈ p.2, q.2.gvr = p.1 ∧ q.2.name = q.1) := by
      intro g hg
      rw [hg]
      refine ⟨listOwned_names_nodup g cluster hclnd hcluniq, ?_⟩
      intro q hq
      have := listOwned_mem hq
      exact ⟨this.1, this.2.1⟩
    rcases hp3 with h | h | h
    · exact key _ h
    · exact key _ h
    · exact key _ h

theorem getExistingAPIObjects_labels (cluster : List APIObject) :
    ∀ p ∈ getExistingAPIObjects cluster, ∀ q ∈ p.2,
      ownerSelectorMatches q.2 = true := by
  intro p hp q hq
  have hp3 : p = (kubernetesApplyGVR, listOwned kubernetesApplyGVR cluster)
      ∨ p = (imageMapGVR, listOwned imageMapGVR cluster)
      ∨ p = (fileWatchGVR, listOwned fileWatchGVR cluster) := by
    simpa [getExistingAPIObjects] using hp
  rcases hp3 with h | h | h <;>
    · rw [h] at hq
      exact (listOwned_mem hq).2.2.1

theorem upsertOp_calls_eq (exec : Call → Option String) (a : ObjectSet) (t : String)
    (no : String × APIObject) :
    (upsertOp exec a t no).map Prod.fst =
      match (mapGet a t).bind fun oldSet => mapGet oldSet no.1 with
      | none => [Call.create no.2]
      | some old =>
        if old.spec ≠ no.2.spec then
          [Call.update { no.2 with resourceVersion := old.resourceVersion }]
        else [] := by
  unfold upsertOp
  cases (mapGet a t).bind fun oldSet => mapGet oldSet no.1 with
  | none => rfl
  | some old =>
    dsimp only
    split <;> rfl

theorem deleteOp_calls_eq (exec : Call → Option String) (d : ObjectSet) (t : String)
    (no : String × APIObject) :
    (deleteOp exec d t no).map Prod.fst =
      match mapGet d t with
      | some newSet => if (mapGet newSet no.1).isSome then [] else [Call.delete no.2]
      | none => [Call.delete no.2] := by
  unfold deleteOp
  cases mapGet d t with
  | none => rfl
  | some newSet =>
    dsimp only
    split <;> rfl

theorem upsertOp_calls_key (exec : Call → Option String) (a : ObjectSet) (t : String)
    (no : String × APIObject) (hgvr : no.2.gvr = t) (hname : no.2.name = no.1) :
    ∀ c ∈ (upsertOp exec a t no).map Prod.fst, c.obj.gvr = t ∧ c.obj.name = no.1 := by
  rw [upsertOp_calls_eq]
  cases (mapGet a t).bind fun oldSet => mapGet oldSet no.1 with
  | none =>
    intro c hc
    rw [List.mem_singleton.mp hc]
    exact ⟨hgvr, hname⟩
  | some old =>
    dsimp only
    split
    · intro c hc
      rw [List.mem_singleton.mp hc]
      exact ⟨hgvr, hname⟩
    · intro c hc
      cases hc

theorem deleteOp_calls_key (exec : Call → Option String) (d : ObjectSet) (t : String)
    (no : String × APIObject) (hgvr : no.2.gvr = t) (hname : no.2.name = no.1) :
    ∀ c ∈ (deleteOp exec d t no).map Prod.fst, c.obj.gvr = t ∧ c.obj.name = no.1 := by
  rw [deleteOp_calls_eq]
  cases mapGet d t with
  | none =>
    intro c hc
    rw [List.mem_singleton.mp hc]
    exact ⟨hgvr, hname⟩
  | some newSet =>
    dsimp only
    split
    · intro c hc
      cases hc
    · intro c hc
      rw [List.mem_singleton.mp hc]
      exact ⟨hgvr, hname⟩

end Tilt.Configs

namespace Tilt.Configs

theorem updateObjectsCalls_eq (exec : Call → Option String) (d a : ObjectSet) :
    updateObjectsCalls exec d a =
      (d.flatMap fun ts => ts.2.flatMap fun no => (upsertOp exec a ts.1 no).map Prod.fst)
      ++ (a.flatMap fun ts => ts.2.flatMap fun no =>
            (deleteOp exec d ts.1 no).map Prod.fst) := by
  unfold updateObjectsCalls updateObjectsOps
  rw [List.map_append]
  congr 1
  · rw [List.map_flatMap]
    exact flatMap_congr_mem _ _ _ fun ts _ => List.map_flatMap _ _ _
  · rw [List.map_flatMap]
    exact flatMap_congr_mem _ _ _ fun ts _ => List.map_flatMap _ _ _

theorem entry_filter_nil {opCalls : (String × APIObject) → List Call} {t n : String}
    (ts : String × TypedObjectSet)
    (hkeys : ∀ no ∈ ts.2, ∀ c ∈ opCalls no, c.obj.gvr = ts.1 ∧ c.obj.name = no.1)
    (hkey : ts.1 ≠ t ∨ ∀ no ∈ ts.2, no.1 ≠ n) :
    ((ts.2.flatMap opCalls).filter fun c => c.obj.gvr == t && c.obj.name == n) = [] := by
  apply filter_flatMap_eq_nil
  intro no hno
  rw [List.filter_eq_nil_iff]
  intro c hc
  obtain ⟨h1, h2⟩ := hkeys no hno c hc
  simp only [Bool.and_eq_true, beq_iff_eq, not_and]
  intro hg
  rcases hkey with hk | hk
  · exact absurd (h1.symm.trans hg) hk
  · rw [h2]
    exact hk no hno

end Tilt.Configs

namespace Tilt.Configs

theorem upsert_callsFor (exec : Call → Option String) (d a : ObjectSet)
    (hwf : WFSet d) (t n : String) :
    callsFor (d.flatMap fun ts =>
        ts.2.flatMap fun no => (upsertOp exec a ts.1 no).map Prod.fst) t n =
      match lookup2 d t n with
      | some dobj =>
        (match lookup2 a t n with
         | none => [Call.create dobj]
         | some aobj =>
           if aobj.spec ≠ dobj.spec then
             [Call.update { dobj with resourceVersion := aobj.resourceVersion }]
           else [])
      | none => [] := by
  unfold callsFor
  have hentry : ∀ ts ∈ d, ∀ no ∈ ts.2,
      ∀ c ∈ (upsertOp exec a ts.1 no).map Prod.fst,
        c.obj.gvr = ts.1 ∧ c.obj.name = no.1 := by
    intro ts hts no hno
    exact upsertOp_calls_key exec a ts.1 no ((hwf.2 ts hts).2 no hno).1
      ((hwf.2 ts hts).2 no hno).2
  cases hd : lookup2 d t n with
  | some dobj =>
    obtain ⟨s, hs, hdn⟩ : ∃ s, mapGet d t = some s ∧ mapGet s n = some dobj := by
      unfold lookup2 at hd
      cases hmt : mapGet d t with
      | none =>
        rw [hmt] at hd
        cases hd
      | some s =>
        rw [hmt] at hd
        exact ⟨s, rfl, hd⟩
    have hsmem : (t, s) ∈ d := mapGet_eq_some_mem hs
    have hdnodup : d.Nodup := List.Nodup.of_map _ hwf.1
    have hothers : ∀ y ∈ d, y ≠ (t, s) →
        ((fun ts : String × TypedObjectSet =>
            ts.2.flatMap fun no => (upsertOp exec a ts.1 no).map Prod.fst) y).filter
          (fun c => c.obj.gvr == t && c.obj.name == n) = [] := by
      intro y hy hyne
      apply entry_filter_nil y (hentry y hy)
      left
      intro hy1
      apply hyne
      obtain ⟨y1, y2⟩ := y
      dsimp only at hy1
      subst hy1
      rw [mem_unique_of_keys_nodup hwf.1 hy hsmem]
    rw [filter_flatMap_eq_single hdnodup hsmem hothers]
    have hsnodup : s.Nodup := List.Nodup.of_map _ (hwf.2 (t, s) hsmem).1
    have hdmem : (n, dobj) ∈ s := mapGet_eq_some_mem hdn
    have hinner : ∀ no ∈ s, no ≠ (n, dobj) →
        ((fun no : String × APIObject =>
            (upsertOp exec a (t, s).1 no).map Prod.fst) no).filter
          (fun c => c.obj.gvr == t && c.obj.name == n) = [] := by
      intro no hno hnone
      rw [List.filter_eq_nil_iff]
      intro c hc
      obtain ⟨h1, h2⟩ := hentry (t, s) hsmem no hno c hc
      simp only [Bool.and_eq_true, beq_iff_eq, not_and]
      intro _
      rw [h2]
      intro hn1
      apply hnone
      obtain ⟨no1, no2⟩ := no
      dsimp only at hn1
      subst hn1
      rw [mem_unique_of_keys_nodup (hwf.2 (t, s) hsmem).1 hno hdmem]
    dsimp only
    rw [filter_flatMap_eq_single hsnodup hdmem hinner]
    rw [upsertOp_calls_eq]
    have hda : ((mapGet a t).bind fun oldSet => mapGet oldSet (n, dobj).1) =
        lookup2 a t n := rfl
    rw [hda]
    obtain ⟨hg, hn⟩ := (hwf.2 (t, s) hsmem).2 (n, dobj) hdmem
    cases lookup2 a t n with
    | none =>
      dsimp only
      rw [List.filter_cons_of_pos (by simp [Call.obj]; exact ⟨hg, hn⟩), List.filter_nil]
    | some aobj =>
      dsimp only
      split
      · rw [List.filter_cons_of_pos (by simp [Call.obj]; exact ⟨hg, hn⟩), List.filter_nil]
      · rfl
  | none =>
    dsimp only
    have hnone : ∀ v, (t, v) ∉ d ∨ mapGet v n = none := by
      intro v
      by_cases hv : (t, v) ∈ d
      · right
        have hvv := mem_mapGet_of_nodup hwf.1 hv
        unfold lookup2 at hd
        rw [hvv] at hd
        exact hd
      · exact Or.inl hv
    apply filter_flatMap_eq_nil
    intro ts hts
    apply entry_filter_nil ts (hentry ts hts)
    by_cases ht : ts.1 = t
    · right
      intro no hno hn1
      obtain ⟨t1, s1⟩ := ts
      dsimp only at ht
      subst ht
      rcases hnone s1 with h | h
      · exact h hts
      · rw [mapGet_eq_none_iff] at h
        obtain ⟨no1, no2⟩ := no
        dsimp only at hn1
        subst hn1
        exact h no2 hno
    · exact Or.inl ht

end Tilt.Configs

namespace Tilt.Configs

theorem delete_callsFor (exec : Call → Option String) (d a : ObjectSet)
    (hwfa : WFSet a) (t n : String) :
    callsFor (a.flatMap fun ts =>
        ts.2.flatMap fun no => (deleteOp exec d ts.1 no).map Prod.fst) t n =
      match lookup2 a t n with
      | some aobj => if (lookup2 d t n).isSome then [] else [Call.delete aobj]
      | none => [] := by
  unfold callsFor
  have hentry : ∀ ts ∈ a, ∀ no ∈ ts.2,
      ∀ c ∈ (deleteOp exec d ts.1 no).map Prod.fst,
        c.obj.gvr = ts.1 ∧ c.obj.name = no.1 := by
    intro ts hts no hno
    exact deleteOp_calls_key exec d ts.1 no ((hwfa.2 ts hts).2 no hno).1
      ((hwfa.2 ts hts).2 no hno).2
  cases ha : lookup2 a t n with
  | some aobj =>
    obtain ⟨s, hs, han⟩ : ∃ s, mapGet a t = some s ∧ mapGet s n = some aobj := by
      unfold lookup2 at ha
      cases hmt : mapGet a t with
      | none =>
        rw [hmt] at ha
        cases ha
      | some s =>
        rw [hmt] at ha
        exact ⟨s, rfl, ha⟩
    have hsmem : (t, s) ∈ a := mapGet_eq_some_mem hs
    have hanodup : a.Nodup := List.Nodup.of_map _ hwfa.1
    have hothers : ∀ y ∈ a, y ≠ (t, s) →
        ((fun ts : String × TypedObjectSet =>
            ts.2.flatMap fun no => (deleteOp exec d ts.1 no).map Prod.fst) y).filter
          (fun c => c.obj.gvr == t && c.obj.name == n) = [] := by
      intro y hy hyne
      apply entry_filter_nil y (hentry y hy)
      left
      intro hy1
      apply hyne
      obtain ⟨y1, y2⟩ := y
      dsimp only at hy1
      subst hy1
      rw [mem_unique_of_keys_nodup hwfa.1 hy hsmem]
    rw [filter_flatMap_eq_single hanodup hsmem hothers]
    have hsnodup : s.Nodup := List.Nodup.of_map _ (hwfa.2 (t, s) hsmem).1
    have hamem : (n, aobj) ∈ s := mapGet_eq_some_mem han
    have hinner : ∀ no ∈ s, no ≠ (n, aobj) →
        ((fun no : String × APIObject =>
            (deleteOp exec d (t, s).1 no).map Prod.fst) no).filter
          (fun c => c.obj.gvr == t && c.obj.name == n) = [] := by
      intro no hno hnone
      rw [List.filter_eq_nil_iff]
      intro c hc
      obtain ⟨h1, h2⟩ := hentry (t, s) hsmem no hno c hc
      simp only [Bool.and_eq_true, beq_iff_eq, not_and]
      intro _
      rw [h2]
      intro hn1
      apply hnone
      obtain ⟨no1, no2⟩ := no
      dsimp only at hn1
      subst hn1
      rw [mem_unique_of_keys_nodup (hwfa.2 (t, s) hsmem).1 hno hamem]
    dsimp only
    rw [filter_flatMap_eq_single hsnodup hamem hinner]
    rw [deleteOp_calls_eq]
    obtain ⟨hg, hn⟩ := (hwfa.2 (t, s) hsmem).2 (n, aobj) hamem
    unfold lookup2
    cases mapGet d t with
    | none =>
      dsimp only
      rw [List.filter_cons_of_pos (by simp [Call.obj]; exact ⟨hg, hn⟩), List.filter_nil]
      rfl
    | some newSet =>
      dsimp only [Option.bind]
      by_cases hns : (mapGet newSet n).isSome
      · rw [if_pos hns]
        rfl
      · rw [if_neg hns,
          List.filter_cons_of_pos (by simp [Call.obj]; exact ⟨hg, hn⟩), List.filter_nil]
  | none =>
    dsimp only
    have hnone : ∀ v, (t, v) ∉ a ∨ mapGet v n = none := by
      intro v
      by_cases hv : (t, v) ∈ a
      · right
        have hvv := mem_mapGet_of_nodup hwfa.1 hv
        unfold lookup2 at ha
        rw [hvv] at ha
        exact ha
      · exact Or.inl hv
    apply filter_flatMap_eq_nil
    intro ts hts
    apply entry_filter_nil ts (hentry ts hts)
    by_cases ht : ts.1 = t
    · right
      intro no hno hn1
      obtain ⟨t1, s1⟩ := ts
      dsimp only at ht
      subst ht
      rcases hnone s1 with h | h
      · exact h hts
      · rw [mapGet_eq_none_iff] at h
        obtain ⟨no1, no2⟩ := no
        dsimp only at hn1
        subst hn1
        exact h no2 hno
    · exact Or.inl ht

end Tilt.Configs

namespace Tilt.Configs

theorem upsertOp_calls_owned (exec : Call → Option String) (a : ObjectSet) (t : String)
    (no : String × APIObject) (h : ownerSelectorMatches no.2 = true) :
    ∀ c ∈ (upsertOp exec a t no).map Prod.fst, ownerSelectorMatches c.obj = true := by
  rw [upsertOp_calls_eq]
  cases (mapGet a t).bind fun oldSet => mapGet oldSet no.1 with
  | none =>
    intro c hc
    rw [List.mem_singleton.mp hc]
    exact h
  | some old =>
    dsimp only
    split
    · intro c hc
      rw [List.mem_singleton.mp hc]
      exact h
    · intro c hc
      cases hc

theorem deleteOp_calls_owned (exec : Call → Option String) (d : ObjectSet) (t : String)
    (no : String × APIObject) (h : ownerSelectorMatches no.2 = true) :
    ∀ c ∈ (deleteOp exec d t no).map Prod.fst, ownerSelectorMatches c.obj = true := by
  rw [deleteOp_calls_eq]
  cases mapGet d t with
  | none =>
    intro c hc
    rw [List.mem_singleton.mp hc]
    exact h
  | some newSet =>
    dsimp only
    split
    · intro c hc
      cases hc
    · intro c hc
      rw [List.mem_singleton.mp hc]
      exact h

/-- C1: against the owner-scoped actual set (`getExistingAPIObjects` of the
backing store), one `updateObjects` pass issues, for each `(kind, name)`:
exactly one create of the desired object when it is absent from the actual
set; exactly one delete of the actual object when it is absent from the
desired set; exactly one update — carrying the actual object's resource
version — when both are present with structurally unequal specs; and no call
at all when both are present with equal specs.  Every issued call's object
carries the Tiltfile owner label (the actual set is listed through the owner
selector, and desired objects are generated with the label), so unlabelled
objects are never touched. -/
theorem updateObjects_reconcile_correct (exec : Call → Option String)
    (desired : ObjectSet) (cluster : List APIObject)
    (hwf : WFSet desired)
    (hlab : ∀ p ∈ desired, ∀ q ∈ p.2, ownerSelectorMatches q.2 = true)
    (hclnd : cluster.Nodup)
    (hcluniq : ∀ o1 ∈ cluster, ∀ o2 ∈ cluster, o1.gvr = o2.gvr → o1.name = o2.name →
      o1 = o2) :
    (∀ t n, callsFor (updateObjectsCalls exec desired (getExistingAPIObjects cluster)) t n =
      match lookup2 desired t n, lookup2 (getExistingAPIObjects cluster) t n with
      | some dobj, none => [Call.create dobj]
      | some dobj, some aobj =>
        if aobj.spec ≠ dobj.spec then
          [Call.update { dobj with resourceVersion := aobj.resourceVersion }]
        else []
      | none, some aobj => [Call.delete aobj]
      | none, none => [])
    ∧ ∀ c ∈ updateObjectsCalls exec desired (getExistingAPIObjects cluster),
        ownerSelectorMatches c.obj = true := by
  have hwfa := WFSet_getExistingAPIObjects cluster hclnd hcluniq
  constructor
  · intro t n
    have h1 := upsert_callsFor exec desired (getExistingAPIObjects cluster) hwf t n
    have h2 := delete_callsFor exec desired (getExistingAPIObjects cluster) hwfa t n
    unfold callsFor at h1 h2 ⊢
    rw [updateObjectsCalls_eq, List.filter_append, h1, h2]
    cases lookup2 desired t n with
    | none =>
      cases lookup2 (getExistingAPIObjects cluster) t n with
      | none => rfl
      | some aobj => rfl
    | some dobj =>
      cases lookup2 (getExistingAPIObjects cluster) t n with
      | none =>
        dsimp only
        rw [List.append_nil]
      | some aobj =>
        dsimp only
        rw [if_pos (show (some dobj : Option APIObject).isSome = true from rfl),
          List.append_nil]
  · intro c hc
    rw [updateObjectsCalls_eq] at hc
    rcases List.mem_append.mp hc with hc | hc
    · obtain ⟨ts, hts, hc2⟩ := List.mem_flatMap.mp hc
      obtain ⟨no, hno, hc3⟩ := List.mem_flatMap.mp hc2
      exact upsertOp_calls_owned exec _ ts.1 no (hlab ts hts no hno) c hc3
    · obtain ⟨ts, hts, hc2⟩ := List.mem_flatMap.mp hc
      obtain ⟨no, hno, hc3⟩ := List.mem_flatMap.mp hc2
      exact deleteOp_calls_owned exec _ ts.1 no
        (getExistingAPIObjects_labels cluster ts hts no hno) c hc3

/-- C1 witness: one desired `KubernetesApply` named `a` (spec `s1`), a
cluster holding an owned `a` with a different spec (`s2`, resource version
`rv7`), an owned `ImageMap` `b`, and an unowned object: the pass updates `a`
carrying `rv7` (and, by the theorem, deletes only owned objects). -/
theorem updateObjects_reconcile_correct_witness :
    callsFor (updateObjectsCalls (fun _ => none)
        [("kubernetesapplys", [("a", { gvr := "kubernetesapplys", name := "a", spec := "s1", resourceVersion := "", labels := [(LabelOwnerKind, LabelOwnerKindTiltfile)] })])]
        (getExistingAPIObjects
          [{ gvr := "kubernetesapplys", name := "a", spec := "s2", resourceVersion := "rv7", labels := [(LabelOwnerKind, LabelOwnerKindTiltfile)] },
           { gvr := "imagemaps", name := "b", spec := "s3", resourceVersion := "rv8", labels := [(LabelOwnerKind, LabelOwnerKindTiltfile)] },
           { gvr := "imagemaps", name := "x", spec := "s", resourceVersion := "", labels := [] }]))
      "kubernetesapplys" "a" =
      [Call.update { gvr := "kubernetesapplys", name := "a", spec := "s1", resourceVersion := "rv7", labels := [(LabelOwnerKind, LabelOwnerKindTiltfile)] }] := by
  have h := (updateObjects_reconcile_correct (fun _ => none)
      [("kubernetesapplys", [("a", { gvr := "kubernetesapplys", name := "a", spec := "s1", resourceVersion := "", labels := [(LabelOwnerKind, LabelOwnerKindTiltfile)] })])]
      [{ gvr := "kubernetesapplys", name := "a", spec := "s2", resourceVersion := "rv7", labels := [(LabelOwnerKind, LabelOwnerKindTiltfile)] },
       { gvr := "imagemaps", name := "b", spec := "s3", resourceVersion := "rv8", labels := [(LabelOwnerKind, LabelOwnerKindTiltfile)] },
       { gvr := "imagemaps", name := "x", spec := "s", resourceVersion := "", labels := [] }]
      (by decide) (by decide) (by decide) (by decide)).1 "kubernetesapplys" "a"
  rw [h]
  rfl

end Tilt.Configs

namespace Tilt.LocalServe

/-! ## Process-server lifecycle (claim C2) -/

theorem countCreates_append (l1 l2 : List ServerAction) :
    countCreates (l1 ++ l2) = countCreates l1 + countCreates l2 := by
  unfold countCreates
  rw [List.filter_append, List.length_append]

theorem countDeletes_append (l1 l2 : List ServerAction) :
    countDeletes (l1 ++ l2) = countDeletes l1 + countDeletes l2 := by
  unfold countDeletes
  rw [List.filter_append, List.length_append]

/-- One reconcile pass while the created command is observed non-terminal:
a mismatching desired state issues exactly one delete if none is pending,
otherwise nothing happens; no create is ever issued, and the bookkeeping of
created commands is untouched. -/
theorem reconcile_nonterminal (c : ServerController) (server : CmdServer) (cr : Cmd)
    (hcr : mapGet c.createdCmds server.name = some cr)
    (hterm : server.status.cmdStatus.terminated = none) :
    reconcile c server =
      (if mismatch cr ((mapGet c.createdTriggerTime server.name).getD 0) server then
        (if (mapGet c.deletingCmds server.name).getD false then (c, [])
         else ({ c with deletingCmds := (server.name, true) :: c.deletingCmds },
               [ServerAction.cmdDelete server.status.cmdName]))
      else (c, [])) := by
  simp only [reconcile]
  rw [hcr]
  dsimp only
  by_cases h1 : cr.spec = ({ args := server.spec.args, dir := server.spec.dir, env := server.spec.env, readinessProbe := server.spec.readinessProbe } : CmdSpec) ∧ (mapGet c.createdTriggerTime server.name).getD 0 = server.spec.triggerTime
  · rw [if_pos h1]
    have hmm : mismatch cr ((mapGet c.createdTriggerTime server.name).getD 0) server
        = false := by
      simp [mismatch, serverCmdSpec, h1.1, h1.2]
    rw [hmm]
    simp
  · rw [if_neg h1]
    by_cases h2 : server.status.cmdName = ""
    · rw [if_pos h2]
      have hmm : mismatch cr ((mapGet c.createdTriggerTime server.name).getD 0) server
          = false := by
        simp [mismatch, h2]
      rw [hmm]
      simp
    · rw [if_neg h2]
      have hterm2 : (server.status.cmdStatus.terminated).isNone = true := by
        rw [hterm]
        rfl
      rw [if_pos hterm2]
      have hmm : mismatch cr ((mapGet c.createdTriggerTime server.name).getD 0) server
          = true := by
        simp [mismatch, serverCmdSpec, h2]
        tauto
      rw [hmm]
      rw [if_pos rfl]

end Tilt.LocalServe

namespace Tilt.LocalServe

/-- Trace lemma: while a created command exists and every pass observes it
as non-terminal, a run dispatches no create, keeps the created-command
bookkeeping unchanged, and dispatches exactly one delete if the pending
flag is clear and some pass demands a replacement — zero otherwise. -/
theorem runServer_nonterminal (inputs : List CmdServer) :
    ∀ (c : ServerController) (name : String) (cr : Cmd) (tt : Nat),
      mapGet c.createdCmds name = some cr →
      (mapGet c.createdTriggerTime name).getD 0 = tt →
      (∀ s ∈ inputs, s.name = name) →
      (∀ s ∈ inputs, s.status.cmdStatus.terminated = none) →
      countCreates (runServer c inputs).2 = 0
      ∧ countDeletes (runServer c inputs).2 =
          (if (mapGet c.deletingCmds name).getD false then 0
           else if inputs.any (mismatch cr tt) then 1 else 0)
      ∧ mapGet (runServer c inputs).1.createdCmds name = some cr
      ∧ (mapGet (runServer c inputs).1.createdTriggerTime name).getD 0 = tt := by
  induction inputs with
  | nil =>
    intro c name cr tt hcr htt _ _
    refine ⟨rfl, ?_, hcr, htt⟩
    simp [runServer, countDeletes]
  | cons s rest ih =>
    intro c name cr tt hcr htt hnames hterm
    have hname : s.name = name := hnames s (List.mem_cons_self _ _)
    have hterm1 : s.status.cmdStatus.terminated = none :=
      hterm s (List.mem_cons_self _ _)
    have hnames2 : ∀ x ∈ rest, x.name = name :=
      fun x hx => hnames x (List.mem_cons_of_mem _ hx)
    have hterm2 : ∀ x ∈ rest, x.status.cmdStatus.terminated = none :=
      fun x hx => hterm x (List.mem_cons_of_mem _ hx)
    have hcr1 : mapGet c.createdCmds s.name = some cr := by
      rw [hname]
      exact hcr
    have hrec := reconcile_nonterminal c s cr hcr1 hterm1
    rw [hname] at hrec
    rw [htt] at hrec
    simp only [runServer]
    rw [hrec]
    have hany : (s :: rest).any (mismatch cr tt) =
        (mismatch cr tt s || rest.any (mismatch cr tt)) := List.any_cons
    by_cases hm : mismatch cr tt s = true
    · rw [if_pos hm]
      by_cases hf : (mapGet c.deletingCmds name).getD false = true
      · rw [if_pos hf]
        dsimp only
        obtain ⟨ih1, ih2, ih3, ih4⟩ := ih c name cr tt hcr htt hnames2 hterm2
        refine ⟨?_, ?_, ih3, ih4⟩
        · rw [countCreates_append, ih1]
          rfl
        · rw [countDeletes_append, ih2, if_pos hf, if_pos hf]
          rfl
      · rw [if_neg hf]
        dsimp only
        obtain ⟨ih1, ih2, ih3, ih4⟩ :=
          ih { c with deletingCmds := (name, true) :: c.deletingCmds } name cr tt
            hcr htt hnames2 hterm2
        refine ⟨?_, ?_, ih3, ih4⟩
        · rw [countCreates_append, ih1]
          rfl
        · rw [countDeletes_append, ih2]
          have hf2 : (mapGet ({ c with
              deletingCmds := (name, true) :: c.deletingCmds }).deletingCmds name).getD
                false = true := by
            simp [mapGet]
          rw [if_pos hf2, if_neg hf, hany, hm]
          rfl
    · rw [if_neg hm]
      dsimp only
      obtain ⟨ih1, ih2, ih3, ih4⟩ := ih c name cr tt hcr htt hnames2 hterm2
      refine ⟨?_, ?_, ih3, ih4⟩
      · rw [countCreates_append, ih1]
        rfl
      · rw [countDeletes_append, ih2, hany]
        rw [Bool.not_eq_true] at hm
        rw [hm]
        simp [countDeletes]

end Tilt.LocalServe

namespace Tilt.LocalServe

/-- A create is dispatched only when no command was created for the server
name or the observed prior command is terminal. -/
theorem reconcile_create_only_if (c : ServerController) (server : CmdServer) :
    (∃ cmd, ServerAction.cmdCreate cmd ∈ (reconcile c server).2) →
      mapGet c.createdCmds server.name = none ∨
        (server.status.cmdStatus.terminated).isSome = true := by
  simp only [reconcile]
  cases hm : mapGet c.createdCmds server.name with
  | none =>
    intro _
    exact Or.inl rfl
  | some created =>
    dsimp only
    rintro ⟨cmd, hcmd⟩
    split at hcmd
    · cases hcmd
    · split at hcmd
      · cases hcmd
      · split at hcmd
        · split at hcmd
          · cases hcmd
          · rcases List.mem_singleton.mp hcmd with h
            cases h
        · rename_i hterm
          right
          cases ht : server.status.cmdStatus.terminated with
          | none =>
            rw [ht] at hterm
            exact absurd rfl hterm
          | some code => rfl

/-- C2: for one server name, over any sequence of reconcile passes during
which the previously created command is observed non-terminal: no create is
dispatched and the created-command bookkeeping never changes (so the single
prior command stays the only one); at most one delete is dispatched, and
exactly one as soon as some pass's desired spec or trigger time differs from
what was created (with the live command name visible); and, in any single
pass, a create is dispatched only when no command was created for the name
or the prior command is terminal. -/
theorem serverController_lifecycle (c : ServerController) (name : String) (cr : Cmd)
    (inputs : List CmdServer)
    (hcr : mapGet c.createdCmds name = some cr)
    (hnames : ∀ s ∈ inputs, s.name = name)
    (hterm : ∀ s ∈ inputs, s.status.cmdStatus.terminated = none) :
    countCreates (runServer c inputs).2 = 0
    ∧ countDeletes (runServer c inputs).2 ≤ 1
    ∧ ((mapGet c.deletingCmds name).getD false = false →
        countDeletes (runServer c inputs).2 =
          (if inputs.any (mismatch cr ((mapGet c.createdTriggerTime name).getD 0)) then 1
           else 0))
    ∧ mapGet (runServer c inputs).1.createdCmds name = some cr
    ∧ ∀ (cst : ServerController) (server : CmdServer),
        (∃ cmd, ServerAction.cmdCreate cmd ∈ (reconcile cst server).2) →
          mapGet cst.createdCmds server.name = none ∨
            (server.status.cmdStatus.terminated).isSome = true := by
  obtain ⟨h1, h2, h3, h4⟩ := runServer_nonterminal inputs c name cr
    ((mapGet c.createdTriggerTime name).getD 0) hcr rfl hnames hterm
  refine ⟨h1, ?_, ?_, h3, fun cst server => reconcile_create_only_if cst server⟩
  · rw [h2]
    by_cases hf : (mapGet c.deletingCmds name).getD false = true
    · rw [if_pos hf]
      omega
    · rw [if_neg hf]
      split <;> omega
  · intro hf
    rw [h2, if_neg (by rw [hf]; exact Bool.false_ne_true)]

/-- C2 witness: a controller that created a running command for `m` at
trigger time `5`, reconciled twice against a changed desired spec, issues
exactly one delete. -/
theorem serverController_lifecycle_witness :
    countDeletes (runServer
      { createdCmds := [("m", { meta := { name := "m-serve-1", ownerReferences := [{ name := "m", kind := "CmdServer" }], annotations := [], labels := [] }, spec := { args := ["x"], dir := "d", env := [], readinessProbe := none }, status := { terminated := none } })],
        createdTriggerTime := [("m", 5)], deletingCmds := [], cmdCount := 1 }
      [{ name := "m", spec := { args := ["y"], dir := "d", env := [], readinessProbe := none, triggerTime := 5 }, status := { cmdName := "m-serve-1", cmdStatus := { terminated := none } } },
       { name := "m", spec := { args := ["y"], dir := "d", env := [], readinessProbe := none, triggerTime := 5 }, status := { cmdName := "m-serve-1", cmdStatus := { terminated := none } } }]).2 =
      (if ([({ name := "m", spec := { args := ["y"], dir := "d", env := [], readinessProbe := none, triggerTime := 5 }, status := { cmdName := "m-serve-1", cmdStatus := { terminated := none } } } : CmdServer),
            { name := "m", spec := { args := ["y"], dir := "d", env := [], readinessProbe := none, triggerTime := 5 }, status := { cmdName := "m-serve-1", cmdStatus := { terminated := none } } }].any
          (mismatch { meta := { name := "m-serve-1", ownerReferences := [{ name := "m", kind := "CmdServer" }], annotations := [], labels := [] }, spec := { args := ["x"], dir := "d", env := [], readinessProbe := none }, status := { terminated := none } }
            ((mapGet ([("m", 5)] : List (String × Nat)) "m").getD 0))) then 1 else 0) :=
  (serverController_lifecycle
    { createdCmds := [("m", { meta := { name := "m-serve-1", ownerReferences := [{ name := "m", kind := "CmdServer" }], annotations := [], labels := [] }, spec := { args := ["x"], dir := "d", env := [], readinessProbe := none }, status := { terminated := none } })],
      createdTriggerTime := [("m", 5)], deletingCmds := [], cmdCount := 1 }
    "m"
    { meta := { name := "m-serve-1", ownerReferences := [{ name := "m", kind := "CmdServer" }], annotations := [], labels := [] }, spec := { args := ["x"], dir := "d", env := [], readinessProbe := none }, status := { terminated := none } }
    [{ name := "m", spec := { args := ["y"], dir := "d", env := [], readinessProbe := none, triggerTime := 5 }, status := { cmdName := "m-serve-1", cmdStatus := { terminated := none } } },
     { name := "m", spec := { args := ["y"], dir := "d", env := [], readinessProbe := none, triggerTime := 5 }, status := { cmdName := "m-serve-1", cmdStatus := { terminated := none } } }]
    (by decide) (by decide) (by decide)).2.2.1 (by decide)

end Tilt.LocalServe
